import Mathlib

/-!
Verification of the CLIP ordered associative container (red-black tree),
a shallow embedding of `src/include/CLIP/Map.h` and `src/include/CLIP/Set.h`.

The two headers generate textually identical balancing code (rotations,
`insert_fixup`, `transplant`, `remove_fixup`, descent loops); the map variant
additionally stores a value per node.  We therefore embed a single node type
`Tree α` carrying an `Int` key (the comparator instantiation used throughout
the repository's tests is the integer comparator) and a payload of type `α`:
the Map functions take `α := Int` (the value), the Set functions take
`α := Unit` (a set node's element is the key itself).

The C code works on heap nodes with `parent` pointers.  The embedding
represents the focus node together with its parent chain as a zipper: a
context entry `Ctx` records, for one ancestor, on which side the focus hangs
(`d`), the ancestor's color/key/value, and its other child (`sib`).  Pointer
surgery in the fix-up loops becomes local rewriting of the zipper; each
rotation/recoloring sequence of the C code is translated by performing the
exact same rewrites on the zipper.  A C null-pointer dereference (the
`remove_fixup` code reads `w->left`/`w->right` without a null guard, and
`insert_fixup` reads `z->parent->parent` guarded only by the parent's color)
is translated as `Option.none`.
-/

namespace CLIP

/-- `MAP_RED_/MAP_BLACK_` resp. `SET_RED_/SET_BLACK_` (Map.h lines 70-74,
Set.h lines 85-89). -/
inductive Color where
  | red   : Color
  | black : Color
deriving DecidableEq

/-- A map/set node (`MapNode_…`/`SetNode_…`) or the null pointer (`nil`).
The `parent` back-pointer of the C struct is not stored in the node: it is
represented by the zipper contexts below. -/
inductive Tree (α : Type) where
  | nil  : Tree α
  | node : Color → Tree α → Int → α → Tree α → Tree α
deriving DecidableEq

namespace Tree

variable {α : Type}

/-- `t && t->color == RED` on a possibly-null node pointer. -/
def isRed : Tree α → Bool
  | node .red _ _ _ _ => true
  | _ => false

/-- `x->color = BLACK`, guarded by `if (x)` where the C code guards it. -/
def blacken : Tree α → Tree α
  | nil => nil
  | node _ l k v r => node .black l k v r

/-- `w->color = RED` (a recoloring that keeps everything else). -/
def redden : Tree α → Tree α
  | nil => nil
  | node _ l k v r => node .red l k v r

/-- The in-order visit sequence of `(key, value)` pairs: this is the order in
which `map_foreach_node`/`map_to_str_node` (Map.h lines 501-511, 457-482) and
`set_to_str_node` (Set.h lines 497-516) visit the nodes: left subtree, the
node itself, right subtree. -/
def entries : Tree α → List (Int × α)
  | nil => []
  | node _ l k v r => entries l ++ (k, v) :: entries r

/-- The keys in in-order visit sequence. -/
def keys (t : Tree α) : List Int := t.entries.map Prod.fst

/-- Number of nodes reachable from a root. -/
def count : Tree α → Nat
  | nil => 0
  | node _ l _ _ r => count l + count r + 1

/-- The tree with values forgotten: node identities, links and colors.
Used to state that an operation does not alter the tree shape. -/
def shape : Tree α → Tree Unit
  | nil => nil
  | node c l k _ r => node c (shape l) k () (shape r)

/-- `map_find_node` (Map.h lines 327-338) and `set_contains_node`
(Set.h lines 334-345) collapsed to the stored payload: the same binary
search guided by the comparator (`cmp == 0` → found, `cmp < 0` → left). -/
def findNode : Tree α → Int → Option α
  | nil, _ => none
  | node _ l k0 v r, k =>
    if k = k0 then some v
    else if k < k0 then findNode l k
    else findNode r k

end Tree

/-- Which child slot of its parent the focus occupies. -/
inductive Dir where
  | left  : Dir
  | right : Dir
deriving DecidableEq

/-- One ancestor on the parent chain of a focus node: the focus is the
`d`-child of a node with color `c`, key `k`, value `v`, whose other child is
`sib`. -/
structure Ctx (α : Type) where
  d   : Dir
  c   : Color
  k   : Int
  v   : α
  sib : Tree α
deriving DecidableEq

namespace Tree

variable {α : Type}

/-- Reattach a focus below its immediate parent. -/
def plugOne (t : Tree α) (e : Ctx α) : Tree α :=
  match e.d with
  | .left  => node e.c t e.k e.v e.sib
  | .right => node e.c e.sib e.k e.v t

/-- Reattach a focus below its whole parent chain (innermost ancestor
first), recovering the tree addressed by `map->root`. -/
def plug : Tree α → List (Ctx α) → Tree α
  | t, [] => t
  | t, e :: p => plug (plugOne t e) p

/-- The common descent loop of `map_insert` (Map.h lines 301-313) and
`map_remove` (lines 360-370), resp. `set_insert`/`set_remove`: walk down from
the root comparing the key, recording the parent chain; stop at an exact
comparator match or at a null child slot. -/
def seek : Tree α → Int → List (Ctx α) → Tree α × List (Ctx α)
  | nil, _, p => (nil, p)
  | node c l k0 v0 r, k, p =>
    if k = k0 then (node c l k0 v0 r, p)
    else if k < k0 then seek l k (⟨.left, c, k0, v0, r⟩ :: p)
    else seek r k (⟨.right, c, k0, v0, l⟩ :: p)

/-- `map_insert_fixup` (Map.h lines 145-195) = `insert_fixup` (Set.h lines
157-207) on the zipper.  The focus `z` is the new/current node, the context
list its parent chain.  Loop guard: parent exists and is red.  `none` models
the dereference `z->parent->parent` when the (red) parent is the root.  The
uncle-red case recolors and continues from the grandparent (two context
entries consumed).  In the uncle-black cases the code rotates; afterwards the
new parent of `z` is black, so the loop exits: the translation returns the
rebuilt tree directly, applying the final `map->root->color = BLACK`. -/
def insFix : Tree α → List (Ctx α) → Option (Tree α)
  | z, [] => some (blacken z)
  | z, e :: rest =>
    if e.c ≠ .red then some (blacken (plug z (e :: rest)))
    else
      match rest with
      | [] => none
      | g :: rest2 =>
        match g.d with
        | .left =>
          -- parent is the left child of the grandparent; uncle = g.sib
          match g.sib with
          | node .red ul uk uv ur =>
            -- uncle red: parent/uncle black, grandparent red, continue up
            insFix (node .red (plugOne z ⟨e.d, .black, e.k, e.v, e.sib⟩)
                      g.k g.v (node .black ul uk uv ur)) rest2
          | u =>
            match e.d with
            | .left =>
              -- outer case: parent black, grandparent red, rotate right at g
              some (blacken (plug
                (node .black z e.k e.v (node .red e.sib g.k g.v u)) rest2))
            | .right =>
              -- inner case: rotate left at the parent first
              match z with
              | nil => none
              | node _ zl zk zv zr =>
                some (blacken (plug
                  (node .black (node .red e.sib e.k e.v zl) zk zv
                    (node .red zr g.k g.v u)) rest2))
        | .right =>
          match g.sib with
          | node .red ul uk uv ur =>
            insFix (node .red (node .black ul uk uv ur) g.k g.v
                      (plugOne z ⟨e.d, .black, e.k, e.v, e.sib⟩)) rest2
          | u =>
            match e.d with
            | .right =>
              some (blacken (plug
                (node .black (node .red u g.k g.v e.sib) e.k e.v z) rest2))
            | .left =>
              match z with
              | nil => none
              | node _ zl zk zv zr =>
                some (blacken (plug
                  (node .black (node .red u g.k g.v zl) zk zv
                    (node .red zr e.k e.v e.sib)) rest2))

/-- The terminating branch of `map_remove_fixup`/`remove_fixup` where the
(left-side) sibling `w` has at least one red child (Map.h lines 234-253,
Set.h lines 244-263): possibly one inner rotation at `w`, then recolor and
rotate left at the parent, set `x = map->root`, exit the loop, and apply the
final `x->color = BLACK` to the root.  `none` models the rotation
`map_rotate_right(map, w)` dereferencing `w->left` when it is null. -/
def remFixCDL (x : Tree α) (pc : Color) (pk : Int) (pv : α)
    (wl : Tree α) (wk : Int) (wv : α) (wr : Tree α)
    (rest : List (Ctx α)) : Option (Tree α) :=
  if ¬ wr.isRed then
    match wl with
    | nil => none
    | node _ a lk lv b =>
      some (blacken (plug
        (node pc (node .black x pk pv a) lk lv
          (blacken (node .red b wk wv wr))) rest))
  else
    some (blacken (plug
      (node pc (node .black x pk pv wl) wk wv (blacken wr)) rest))

/-- Mirror image of `remFixCDL`: `x` is the right child, `w` the left
sibling (Map.h lines 273-292, Set.h lines 283-302). -/
def remFixCDR (x : Tree α) (pc : Color) (pk : Int) (pv : α)
    (wl : Tree α) (wk : Int) (wv : α) (wr : Tree α)
    (rest : List (Ctx α)) : Option (Tree α) :=
  if ¬ wl.isRed then
    match wr with
    | nil => none
    | node _ a rk rv b =>
      some (blacken (plug
        (node pc (blacken (node .red wl wk wv a)) rk rv
          (node .black b pk pv x)) rest))
  else
    some (blacken (plug
      (node pc (blacken wl) wk wv (node .black wr pk pv x)) rest))

/-- `map_remove_fixup` (Map.h lines 212-297) = `remove_fixup` (Set.h lines
222-307) on the zipper.  The anchor `x` may be null; its tracked parent is
the head of the context list (`x != map->root` iff the context is nonempty).
The C side test is the pointer comparison `x == x_parent->left`, which when
`x` is null and both children of the parent are null sends a right-side
anchor down the left branch with `w = x_parent->right = NULL`; the unguarded
read `!w->left` then dereferences null, modelled by `none`.  The sibling-red
pre-step refreshes `w` and continues within the same iteration; if both of
the new sibling's children are non-red, the anchor moves to the (now red)
parent, the next loop test exits, and the final `if (x) x->color = BLACK`
blackens it.  The both-children-non-red case recolors the sibling red and
moves the anchor up (the recursive call). -/
def remFix : Tree α → List (Ctx α) → Option (Tree α)
  | x, [] => some (blacken x)
  | x, e :: rest =>
    if x.isRed then some (plug (blacken x) (e :: rest))
    else
      match e.d, x, e.sib with
      | .left, _, _ | .right, nil, nil =>
        -- `x == x_parent->left` holds
        let w : Tree α := match e.d with | .left => e.sib | .right => nil
        match w with
        | node .red wl wk wv wr =>
          -- sibling red: sibling black, parent red, rotate left at parent;
          -- the refreshed sibling is wl
          match wl with
          | nil => none
          | node _ wla wlk wlv wlb =>
            if ¬ wla.isRed ∧ ¬ wlb.isRed then
              some (plug (node .black x e.k e.v (node .red wla wlk wlv wlb))
                (⟨.left, .black, wk, wv, wr⟩ :: rest))
            else
              remFixCDL x .red e.k e.v wla wlk wlv wlb
                (⟨.left, .black, wk, wv, wr⟩ :: rest)
        | node .black wl wk wv wr =>
          if ¬ wl.isRed ∧ ¬ wr.isRed then
            remFix (node e.c x e.k e.v (node .red wl wk wv wr)) rest
          else
            remFixCDL x e.c e.k e.v wl wk wv wr rest
        | nil => none
      | .right, _, _ =>
        let w : Tree α := e.sib
        match w with
        | node .red wl wk wv wr =>
          match wr with
          | nil => none
          | node _ wra wrk wrv wrb =>
            if ¬ wra.isRed ∧ ¬ wrb.isRed then
              some (plug (node .black (node .red wra wrk wrv wrb) e.k e.v x)
                (⟨.right, .black, wk, wv, wl⟩ :: rest))
            else
              remFixCDR x .red e.k e.v wra wrk wrv wrb
                (⟨.right, .black, wk, wv, wl⟩ :: rest)
        | node .black wl wk wv wr =>
          if ¬ wr.isRed ∧ ¬ wl.isRed then
            remFix (node e.c (node .red wl wk wv wr) e.k e.v x) rest
          else
            remFixCDR x e.c e.k e.v wl wk wv wr rest
        | nil => none

/-- `map_find_min_node`/`set_find_min_node` combined with the successor
splice of `map_remove`/`set_remove` (Map.h lines 393-409): walk to the
leftmost node of a subtree recording the parent chain (`acc` head = nearest
ancestor); return the minimum's color, key, value, right child (which is
transplanted into its place), and the recorded chain. -/
def delMin : Tree α → List (Ctx α) →
    Option (Color × Int × α × Tree α × List (Ctx α))
  | nil, _ => none
  | node c l k v r, acc =>
    match l with
    | nil => some (c, k, v, r, acc)
    | node cl ll lk lv lr =>
      delMin (node cl ll lk lv lr) (⟨.left, c, k, v, r⟩ :: acc)

/-- `map_remove` (Map.h lines 358-424) = `set_remove` (Set.h lines 359-425)
on the root tree: search for the key (no mutation and `false` if absent);
splice the node out (directly if it has at most one child, else through its
in-order successor, which inherits the node's color, left child and
position); if the spliced node's original color was black, run the remove
fix-up from the anchor position.  Returns whether a node was removed,
and the new root tree. -/
def removeT (t : Tree α) (k : Int) : Option (Bool × Tree α) :=
  match seek t k [] with
  | (nil, _) => some (false, t)
  | (node zc zl _ _ zr, path) =>
    match zl, zr with
    | nil, _ =>
      -- no left child: transplant the right child into z's place
      if zc = .black then (remFix zr path).map (fun u => (true, u))
      else some (true, plug zr path)
    | node cl l1 k1 v1 r1, nil =>
      if zc = .black then
        (remFix (node cl l1 k1 v1 r1) path).map (fun u => (true, u))
      else some (true, plug (node cl l1 k1 v1 r1) path)
    | node _ _ _ _ _, node _ _ _ _ _ =>
      -- two children: splice the minimum y of the right subtree
      match delMin zr [] with
      | none => none
      | some (yc, yk, yv, x, sp) =>
        let pathFix := sp ++ ⟨.right, zc, yk, yv, zl⟩ :: path
        if yc = .black then (remFix x pathFix).map (fun u => (true, u))
        else some (true, plug x pathFix)

end Tree

open Tree

/-- `Map_<K>_<V>` (Map.h lines 84-88): root node and size. -/
structure RBMap (α : Type) where
  root : Tree α
  size : Int
deriving DecidableEq

/-- `init_map_…` (Map.h lines 90-94): zero-initialized structure. -/
def initMap {α : Type} : RBMap α := ⟨.nil, 0⟩

/-- `map_insert_…` (Map.h lines 299-325): on a comparator match the stored
value is overwritten in place and `false` is returned; otherwise a new red
node is attached at the null slot reached, `map_insert_fixup` runs, size is
incremented, and `true` is returned. -/
def mapInsert {α : Type} (m : RBMap α) (k : Int) (v : α) :
    Option (Bool × RBMap α) :=
  match seek m.root k [] with
  | (.node c l k0 _ r, path) =>
    some (false, ⟨plug (.node c l k0 v r) path, m.size⟩)
  | (.nil, path) =>
    (insFix (.node .red .nil k v .nil) path).map
      (fun t => (true, ⟨t, m.size + 1⟩))

/-- `map_remove_…` (Map.h lines 358-424) at the `Map` structure level:
decrements `size` exactly when a node was removed. -/
def mapRemove {α : Type} (m : RBMap α) (k : Int) : Option (Bool × RBMap α) :=
  match removeT m.root k with
  | none => none
  | some (false, _) => some (false, m)
  | some (true, t) => some (true, ⟨t, m.size - 1⟩)

/-- `map_get_…` (Map.h lines 345-349): the stored value if the key is
found by `map_find_node`, a null result otherwise. -/
def mapGet {α : Type} (m : RBMap α) (k : Int) : Option α := findNode m.root k

/-- `map_contains_…` (Map.h lines 340-343). -/
def mapContains {α : Type} (m : RBMap α) (k : Int) : Bool :=
  (findNode m.root k).isSome

/-- `map_clear_…` (Map.h lines 445-450): frees all nodes (a post-order walk,
pure memory reclamation), then resets root to null and size to 0. -/
def mapClear {α : Type} (_ : RBMap α) : RBMap α := ⟨.nil, 0⟩

/-- `Set_<T>` (Set.h lines 98-102). -/
structure RBSet where
  root : Tree Unit
  size : Int
deriving DecidableEq

/-- `init_set_…` (Set.h lines 104-108). -/
def initSet : RBSet := ⟨.nil, 0⟩

/-- `set_insert_…` (Set.h lines 309-332): returns `false` immediately on a
comparator match (duplicate), leaving the set untouched; otherwise attaches
a new red node, runs `insert_fixup` and increments size. -/
def setInsert (s : RBSet) (k : Int) : Option (Bool × RBSet) :=
  match seek s.root k [] with
  | (.node _ _ _ _ _, _) => some (false, s)
  | (.nil, path) =>
    (insFix (.node .red .nil k () .nil) path).map
      (fun t => (true, ⟨t, s.size + 1⟩))

/-- `set_contains_…` (Set.h lines 347-350). -/
def setContains (s : RBSet) (k : Int) : Bool := (findNode s.root k).isSome

/-- `set_remove_…` (Set.h lines 359-425). -/
def setRemove (s : RBSet) (k : Int) : Option (Bool × RBSet) :=
  match removeT s.root k with
  | none => none
  | some (false, _) => some (false, s)
  | some (true, t) => some (true, ⟨t, s.size - 1⟩)

/-- `set_clear_…` (Set.h lines 452-457): post-order free of all nodes, then
root null, size 0. -/
def setClear (_ : RBSet) : RBSet := ⟨.nil, 0⟩

/-- The sequence of elements on which `set_clear_node_…` (Set.h lines
438-450) invokes the registered destructor `FREE_FN`: for every node, in
post-order (both children before the node), the destructor receives the
node's current `value` field. -/
def clearDtorList : Tree Unit → List Int
  | .nil => []
  | .node _ l k _ r => clearDtorList l ++ clearDtorList r ++ [k]

/-- `set_join_recursive_…` (Set.h lines 461-471): post-order walk of the
source; each node's element is inserted into the destination, and when the
insertion succeeds the source node's value is zeroed (`(Type){0}`, i.e. `0`
for the integer instantiation) to transfer ownership.  Returns the updated
destination and the source tree with the mutated values.  (The C mutates the
source nodes in place; the walk itself follows the structural pointers, and
each node's element is read before its own mutation.) -/
def setJoinRec (dest : RBSet) : Tree Unit → Option (RBSet × Tree Unit)
  | .nil => some (dest, .nil)
  | .node c l k v r =>
    match setJoinRec dest l with
    | none => none
    | some (d1, l1) =>
      match setJoinRec d1 r with
      | none => none
      | some (d2, r2) =>
        match setInsert d2 k with
        | none => none
        | some (true, d3) => some (d3, .node c l1 0 v r2)
        | some (false, d3) => some (d3, .node c l1 k v r2)

/-- `set_join_…` (Set.h lines 480-490): returns 0 and does nothing when the
source is empty (size field 0); otherwise runs the recursive transfer, clears
the source, and returns the destination size growth.  The result also
exposes the list of elements the source's clear passes to the destructor,
for reasoning about disposal. -/
def setJoin (dest src : RBSet) : Option (Int × RBSet × RBSet × List Int) :=
  if src.size = 0 then some (0, dest, src, [])
  else
    match setJoinRec dest src.root with
    | none => none
    | some (d2, srcRoot2) =>
      some (d2.size - dest.size, d2, ⟨.nil, 0⟩, clearDtorList srcRoot2)

/-- Invariant 3 of the spec as a decidable predicate: no red node has a red
child. -/
def noRedRed {α : Type} : Tree α → Bool
  | .nil => true
  | .node c l _ _ r =>
    noRedRed l && noRedRed r && !(c = .red && (l.isRed || r.isRed))

/-- Invariant 4 of the spec: the black-height of a tree when every path from
the root to a null child passes through the same number of black nodes,
`none` otherwise. -/
def bhOf {α : Type} : Tree α → Option Nat
  | .nil => some 0
  | .node c l _ _ r =>
    match bhOf l, bhOf r with
    | some a, some b =>
      if a = b then some (a + (if c = .black then 1 else 0)) else none
    | _, _ => none

/-- Invariant 2 of the spec: the root is black, or the tree is empty. -/
def rootBlackOrNil {α : Type} : Tree α → Bool
  | .nil => true
  | .node c _ _ _ _ => c = .black

/-- A public map operation, for stating properties of all operation
sequences. -/
inductive MapOp where
  | ins : Int → Int → MapOp
  | rem : Int → MapOp
deriving DecidableEq

/-- Run a sequence of public map operations (left to right) from a given
map. -/
def runMapFrom (m : RBMap Int) : List MapOp → Option (RBMap Int)
  | [] => some m
  | op :: ops =>
    match (match op with
           | .ins k v => (mapInsert m k v).map Prod.snd
           | .rem k => (mapRemove m k).map Prod.snd) with
    | none => none
    | some m2 => runMapFrom m2 ops

/-- Run a sequence of public map operations starting from `init_map`. -/
def runMapOps (ops : List MapOp) : Option (RBMap Int) :=
  runMapFrom initMap ops

namespace Tree

variable {α : Type}

/-- Contribution of a node of color `c` to the black-height. -/
def cInc : Color → Nat
  | .red => 0
  | .black => 1

/-- The red-black validity predicate over a (sub)tree: `IsRB t c n` states
that `t` has root color `c` and black-height `n` (number of black nodes on
every path to a null child), that no red node has a red child, and that
black counts agree on all paths.  A null child counts as black with
black-height 0. -/
inductive IsRB : Tree α → Color → Nat → Prop where
  | nil : IsRB nil .black 0
  | red {l r : Tree α} {k : Int} {v : α} {n : Nat} :
      IsRB l .black n → IsRB r .black n → IsRB (node .red l k v r) .red n
  | black {l r : Tree α} {cl cr : Color} {k : Int} {v : α} {n : Nat} :
      IsRB l cl n → IsRB r cr n → IsRB (node .black l k v r) .black (n + 1)

/-- A well-formed root tree: empty, or a black-rooted valid red-black
tree. -/
def WFt (t : Tree α) : Prop := ∃ n, IsRB t .black n

/-- Validity of a parent chain around a hole that expects black-height `n`:
each ancestor's other child is a valid red-black subtree of the height that
matches the hole, a red ancestor has a black-rooted sibling-subtree and a
black parent (so no red-red edge above the hole and the root is black). -/
def CtxOK : List (Ctx α) → Nat → Prop
  | [], _ => True
  | e :: rest, n =>
    (∃ cs, IsRB e.sib cs n ∧ (e.c = .red → cs = .black)) ∧
    (e.c = .red → ∃ f rs, rest = f :: rs ∧ f.c = .black) ∧
    CtxOK rest (n + cInc e.c)

/-- The remove fix-up anchor: either a valid red-black subtree, or a red
node whose subtrees are valid of equal black-height but whose own children
may be red (the transient red-red violation that the fix-up resolves by
blackening the anchor). -/
def IRB (t : Tree α) (n : Nat) : Prop :=
  (∃ c, IsRB t c n) ∨
  (∃ l k v r cl cr, t = node .red l k v r ∧ IsRB l cl n ∧ IsRB r cr n)

/-- The in-order entries contributed by a parent chain: the pairs that come
before the hole and the pairs that come after it. -/
def ectx : List (Ctx α) → List (Int × α) × List (Int × α)
  | [] => ([], [])
  | e :: rest =>
    let p := ectx rest
    match e.d with
    | .left => (p.1, (e.k, e.v) :: e.sib.entries ++ p.2)
    | .right => (p.1 ++ e.sib.entries ++ [(e.k, e.v)], p.2)

/-- A parent chain lies on the search path of key `k`: every left-entry
ancestor has a key greater than `k` and every right-entry ancestor a key
smaller than `k`. -/
def Guides (k : Int) : List (Ctx α) → Prop
  | [] => True
  | e :: rest =>
    (match e.d with | .left => k < e.k | .right => e.k < k) ∧ Guides k rest

/-- Association-list lookup on the in-order entry list (first match). -/
def alook : List (Int × α) → Int → Option α
  | [], _ => none
  | (k0, v) :: l, k => if k = k0 then some v else alook l k

/-- Map a function over the elements of a set tree (used to describe the
value-zeroing that `set_join_recursive` performs on transferred nodes). -/
def mapKeysT (f : Int → Int) : Tree Unit → Tree Unit
  | nil => nil
  | node c l k v r => node c (mapKeysT f l) (f k) v (mapKeysT f r)

/-- The combined data-structure invariant of a root tree with a size field:
red-black validity (spec invariants 1-4), strictly increasing in-order keys
(spec invariant 5), and exact size accounting. -/
def TInv (t : Tree α) (sz : Int) : Prop :=
  WFt t ∧ t.keys.Pairwise (· < ·) ∧ sz = (t.count : Int)

end Tree

/-- The data-structure invariant of a map. -/
def MInv {α : Type} (m : RBMap α) : Prop := Tree.TInv m.root m.size

/-- The data-structure invariant of a set. -/
def SInv (s : RBSet) : Prop := Tree.TInv s.root s.size

/-- Insert a list of key/value pairs left to right (`map_insert` iterated,
as the repository's tests do). -/
def insertAll : RBMap Int → List (Int × Int) → Option (RBMap Int)
  | m, [] => some m
  | m, (k, v) :: l =>
    match mapInsert m k v with
    | none => none
    | some (_, m2) => insertAll m2 l

/-- A public set operation. -/
inductive SetOp where
  | ins : Int → SetOp
  | rem : Int → SetOp
deriving DecidableEq

/-- Run a sequence of public set operations (left to right) from a given
set. -/
def runSetFrom (s : RBSet) : List SetOp → Option RBSet
  | [] => some s
  | op :: ops =>
    match (match op with
           | .ins k => (setInsert s k).map Prod.snd
           | .rem k => (setRemove s k).map Prod.snd) with
    | none => none
    | some s2 => runSetFrom s2 ops

/-- Run a sequence of public set operations starting from `init_set`. -/
def runSetOps (ops : List SetOp) : Option RBSet :=
  runSetFrom initSet ops

/-- Insert a list of elements left to right (`set_insert` iterated, as the
repository's tests do). -/
def insertAllS : RBSet → List Int → Option RBSet
  | s, [] => some s
  | s, k :: l =>
    match setInsert s k with
    | none => none
    | some (_, s2) => insertAllS s2 l

/-! ### Basic lemmas about plugging, entries and the validity predicate -/

namespace Tree

variable {α : Type}

theorem plug_append (t : Tree α) (p q : List (Ctx α)) :
    plug t (p ++ q) = plug (plug t p) q := by
  induction p generalizing t with
  | nil => rfl
  | cons e p ih => simp [plug, ih]

theorem entries_plug (t : Tree α) (p : List (Ctx α)) :
    entries (plug t p) = (ectx p).1 ++ entries t ++ (ectx p).2 := by
  induction p generalizing t with
  | nil => simp [plug, ectx]
  | cons e p ih =>
    cases e with
    | mk d c k v s => cases d <;> simp [plug, plugOne, ectx, ih, entries]

theorem entries_blacken (t : Tree α) : entries (blacken t) = entries t := by
  cases t <;> rfl

theorem count_eq_entries_length (t : Tree α) :
    count t = (entries t).length := by
  induction t with
  | nil => rfl
  | node c l k v r ihl ihr => simp [count, entries, ihl, ihr]; omega

theorem keys_eq (t : Tree α) : keys t = t.entries.map Prod.fst := rfl

theorem isRB_nil_inv {c : Color} {n : Nat} (h : IsRB (nil : Tree α) c n) :
    c = .black ∧ n = 0 := by
  cases h; exact ⟨rfl, rfl⟩

theorem isRB_red_inv {t : Tree α} {n : Nat} (h : IsRB t .red n) :
    ∃ l k v r, t = node .red l k v r ∧ IsRB l .black n ∧ IsRB r .black n := by
  cases h with
  | red hl hr => exact ⟨_, _, _, _, rfl, hl, hr⟩

theorem isRB_black_succ_inv {t : Tree α} {n : Nat}
    (h : IsRB t .black (n + 1)) :
    ∃ cl cr l k v r, t = node .black l k v r ∧ IsRB l cl n ∧ IsRB r cr n := by
  cases h with
  | black hl hr => exact ⟨_, _, _, _, _, _, rfl, hl, hr⟩

theorem isRB_black_zero_inv {t : Tree α} (h : IsRB t .black 0) : t = nil := by
  cases h; rfl

theorem isRB_isRed {t : Tree α} {c : Color} {n : Nat} (h : IsRB t c n) :
    isRed t = true ↔ c = .red := by
  cases h <;> simp [isRed]

theorem isRB_not_red {t : Tree α} {c : Color} {n : Nat} (h : IsRB t c n)
    (hr : ¬ isRed t = true) : c = .black := by
  cases c
  · exact absurd ((isRB_isRed h).mpr rfl) hr
  · rfl

theorem isRB_node_color {cc : Color} {l : Tree α} {k : Int} {v : α}
    {r : Tree α} {c : Color} {n : Nat} (h : IsRB (node cc l k v r) c n) :
    c = cc := by
  cases h <;> rfl

theorem blacken_RB {t : Tree α} {c : Color} {n : Nat} (h : IsRB t c n) :
    ∃ m, IsRB (blacken t) .black m := by
  cases h with
  | nil => exact ⟨0, IsRB.nil⟩
  | red hl hr => exact ⟨_, IsRB.black hl hr⟩
  | black hl hr => exact ⟨_, IsRB.black hl hr⟩

theorem irb_blacken {t : Tree α} {n : Nat} (h : IRB t n) :
    ∃ m, IsRB (blacken t) .black m := by
  rcases h with ⟨c, hc⟩ | ⟨l, k, v, r, cl, cr, rfl, hl, hr⟩
  · exact blacken_RB hc
  · exact ⟨_, IsRB.black hl hr⟩

theorem irb_red_blacken {t : Tree α} {n : Nat} (h : IRB t n)
    (hr : isRed t = true) : IsRB (blacken t) .black (n + 1) := by
  rcases h with ⟨c, hc⟩ | ⟨l, k, v, r, cl, cr, rfl, hl, hr2⟩
  · cases hc with
    | nil => simp [isRed] at hr
    | red hl hr2 => exact IsRB.black hl hr2
    | black hl hr2 => simp [isRed] at hr
  · exact IsRB.black hl hr2

theorem irb_not_red {t : Tree α} {n : Nat} (h : IRB t n)
    (hr : ¬ isRed t = true) : IsRB t .black n := by
  rcases h with ⟨c, hc⟩ | ⟨l, k, v, r, cl, cr, rfl, hl, hr2⟩
  · exact (isRB_not_red hc hr) ▸ hc
  · simp [isRed] at hr

theorem isRB_of_isRB {t : Tree α} {c : Color} {n : Nat} (h : IsRB t c n) :
    IRB t n := Or.inl ⟨c, h⟩

/-- Plugging a suitable subtree into a valid parent chain yields a valid
black-rooted tree. -/
theorem plug_RB {p : List (Ctx α)} {n : Nat} {t : Tree α} {c : Color}
    (hp : CtxOK p n) (ht : IsRB t c n)
    (hhead : ∀ f rs, p = f :: rs → f.c = .red → c = .black)
    (hnil : p = [] → c = .black) :
    ∃ m, IsRB (plug t p) .black m := by
  induction p generalizing n t c with
  | nil => exact ⟨n, (hnil rfl) ▸ ht⟩
  | cons e p ih =>
    obtain ⟨⟨cs, hsib, hsc⟩, hup, hrest⟩ := hp
    obtain ⟨d, ec, ek, ev, es⟩ := e
    cases ec with
    | black =>
      have hplug : IsRB (plugOne t ⟨d, .black, ek, ev, es⟩) .black (n + 1) := by
        cases d
        · exact IsRB.black ht hsib
        · exact IsRB.black hsib ht
      exact ih hrest hplug (fun _ _ _ _ => rfl) (fun _ => rfl)
    | red =>
      have hcb : c = .black := hhead _ _ rfl rfl
      have hcs : cs = .black := hsc rfl
      subst hcb; subst hcs
      have hplug : IsRB (plugOne t ⟨d, .red, ek, ev, es⟩) .red n := by
        cases d
        · exact IsRB.red ht hsib
        · exact IsRB.red hsib ht
      obtain ⟨f, rs, hfr, hfc⟩ := hup rfl
      subst hfr
      exact ih hrest hplug
        (fun f2 rs2 hf hfc2 => by
          injection hf with h1 h2; subst h1; subst h2; simp_all)
        (by intro h; cases h)

end Tree


namespace Tree

variable {α : Type}

theorem blacken_eq_of_black {t : Tree α} {n : Nat} (h : IsRB t .black n) :
    blacken t = t := by
  cases h <;> rfl

theorem insFix_spec {z : Tree α} {p : List (Ctx α)} :
    ∀ {n : Nat}, IsRB z .red n → CtxOK p n →
    ∃ t, insFix z p = some t ∧ (∃ m, IsRB t .black m) ∧
      entries t = entries (plug z p) := by
  induction z, p using insFix.induct with
  | case1 z =>
    intro n hz hp
    exact ⟨blacken z, rfl, blacken_RB hz, entries_blacken z⟩
  | case2 z e p hne =>
    intro n hz hp
    refine ⟨blacken (plug z (e :: p)), ?_, ?_, entries_blacken _⟩
    · unfold insFix; rw [if_pos hne]
    · obtain ⟨m, hm⟩ := plug_RB hp hz
        (fun f rs hf hfc => absurd (show e.c = .red by cases hf; exact hfc) hne)
        (by intro h; cases h)
      exact ⟨m, by rw [blacken_eq_of_black hm]; exact hm⟩
  | case3 z e hne =>
    intro n hz hp
    obtain ⟨_, hup, _⟩ := hp
    obtain ⟨f, rs, hfr, _⟩ := hup (not_not.mp hne)
    cases hfr
  | case4 z e hne g rest2 hgd ul uk uv ur hgsib ih =>
    intro n hz hp
    have hec : e.c = .red := not_not.mp hne
    obtain ⟨⟨cs, hsib, hcs⟩, hup, hrest⟩ := hp
    rw [hec] at hrest
    obtain ⟨⟨cu, husib, _⟩, _, hrest2⟩ := hrest
    obtain ⟨f, rs, hfr, hfc⟩ := hup hec
    cases hfr
    rw [hgsib] at husib
    have hcu : cu = .red := isRB_node_color husib
    rw [hcu] at husib
    obtain ⟨l2, k2, v2, r2, heq, hul, hur⟩ := isRB_red_inv husib
    injection heq with _ h1 h2 h3 h4
    subst h1; subst h2; subst h3; subst h4
    have hcsb : cs = .black := hcs hec
    rw [hcsb] at hsib
    have hfoc : IsRB (node .red (plugOne z ⟨e.d, .black, e.k, e.v, e.sib⟩)
        g.k g.v (node .black ul uk uv ur)) .red (n + 1) := by
      refine IsRB.red ?_ (IsRB.black hul hur)
      cases hd : e.d
      · simpa [plugOne, hd] using IsRB.black hz hsib
      · simpa [plugOne, hd] using IsRB.black hsib hz
    rw [hfc, cInc] at hrest2
    obtain ⟨t, hteq, hwf, hent⟩ := ih hfoc hrest2
    refine ⟨t, ?_, hwf, ?_⟩
    · unfold insFix
      rw [if_neg (by simp [hec])]
      simp only [hgd, hgsib]
      exact hteq
    · rw [hent]
      cases hd : e.d <;>
        simp [entries_plug, entries, plugOne, ectx, hd, hgd, hgsib,
          List.append_assoc]
  | case5 z e hne g rest2 hgd hed hnotred =>
    intro n hz hp
    have hec : e.c = .red := not_not.mp hne
    obtain ⟨⟨cs, hsib, hcs⟩, hup, hrest⟩ := hp
    rw [hec] at hrest
    obtain ⟨⟨cu, husib, _⟩, _, hrest2⟩ := hrest
    obtain ⟨f, rs, hfr, hfc⟩ := hup hec
    cases hfr
    have hcsb : cs = .black := hcs hec
    rw [hcsb] at hsib
    rw [hfc, cInc] at hrest2
    generalize hu : g.sib = u at husib hnotred
    have hcu : cu = .black := by
      cases hcu2 : cu
      · rw [hcu2] at husib
        obtain ⟨l2, k2, v2, r2, heq, _, _⟩ := isRB_red_inv husib
        exact absurd heq (fun hh => hnotred _ _ _ _ hh)
      · rfl
    rw [hcu] at husib
    have hS : IsRB (node .black z e.k e.v (node .red e.sib g.k g.v u))
        .black (n + 1) := IsRB.black hz (IsRB.red hsib husib)
    obtain ⟨m, hm⟩ := plug_RB hrest2 hS (fun _ _ _ _ => rfl) (fun _ => rfl)
    refine ⟨blacken (plug (node .black z e.k e.v (node .red e.sib g.k g.v u))
      rest2), ?_, ⟨m, by rw [blacken_eq_of_black hm]; exact hm⟩, ?_⟩
    · unfold insFix
      rw [if_neg (by simp [hec])]
      simp only [hgd, hu, hed]
    · simp only [entries_blacken, entries_plug]
      simp [entries, ectx, hed, hgd, hu, List.append_assoc]
  | case6 e hne g rest2 hgd hed hnotred =>
    intro n hz hp
    obtain ⟨l, k, v, r, heq, _, _⟩ := isRB_red_inv hz
    cases heq
  | case7 e hne g rest2 hgd hed zc zl zk zv zr hnotred =>
    intro n hz hp
    have hec : e.c = .red := not_not.mp hne
    obtain ⟨⟨cs, hsib, hcs⟩, hup, hrest⟩ := hp
    rw [hec] at hrest
    obtain ⟨⟨cu, husib, _⟩, _, hrest2⟩ := hrest
    obtain ⟨f, rs, hfr, hfc⟩ := hup hec
    cases hfr
    have hcsb : cs = .black := hcs hec
    rw [hcsb] at hsib
    rw [hfc, cInc] at hrest2
    generalize hu : g.sib = u at husib hnotred
    have hcu : cu = .black := by
      cases hcu2 : cu
      · rw [hcu2] at husib
        obtain ⟨l2, k2, v2, r2, heq, _, _⟩ := isRB_red_inv husib
        exact absurd heq (fun hh => hnotred _ _ _ _ hh)
      · rfl
    rw [hcu] at husib
    obtain ⟨l2, k2, v2, r2, heq, hzl, hzr⟩ := isRB_red_inv hz
    injection heq with _ h1 h2 h3 h4
    subst h1; subst h2; subst h3; subst h4
    have hS : IsRB (node .black (node .red e.sib e.k e.v zl) zk zv
        (node .red zr g.k g.v u)) .black (n + 1) :=
      IsRB.black (IsRB.red hsib hzl) (IsRB.red hzr husib)
    obtain ⟨m, hm⟩ := plug_RB hrest2 hS (fun _ _ _ _ => rfl) (fun _ => rfl)
    refine ⟨blacken (plug (node .black (node .red e.sib e.k e.v zl) zk zv
      (node .red zr g.k g.v u)) rest2), ?_,
      ⟨m, by rw [blacken_eq_of_black hm]; exact hm⟩, ?_⟩
    · unfold insFix
      rw [if_neg (by simp [hec])]
      simp only [hgd, hu, hed]
    · simp only [entries_blacken, entries_plug]
      simp [entries, ectx, hed, hgd, hu, List.append_assoc]
  | case8 z e hne g rest2 hgd ul uk uv ur hgsib ih =>
    intro n hz hp
    have hec : e.c = .red := not_not.mp hne
    obtain ⟨⟨cs, hsib, hcs⟩, hup, hrest⟩ := hp
    rw [hec] at hrest
    obtain ⟨⟨cu, husib, _⟩, _, hrest2⟩ := hrest
    obtain ⟨f, rs, hfr, hfc⟩ := hup hec
    cases hfr
    rw [hgsib] at husib
    have hcu : cu = .red := isRB_node_color husib
    rw [hcu] at husib
    obtain ⟨l2, k2, v2, r2, heq, hul, hur⟩ := isRB_red_inv husib
    injection heq with _ h1 h2 h3 h4
    subst h1; subst h2; subst h3; subst h4
    have hcsb : cs = .black := hcs hec
    rw [hcsb] at hsib
    have hfoc : IsRB (node .red (node .black ul uk uv ur) g.k g.v
        (plugOne z ⟨e.d, .black, e.k, e.v, e.sib⟩)) .red (n + 1) := by
      refine IsRB.red (IsRB.black hul hur) ?_
      cases hd : e.d
      · simpa [plugOne, hd] using IsRB.black hz hsib
      · simpa [plugOne, hd] using IsRB.black hsib hz
    rw [hfc, cInc] at hrest2
    obtain ⟨t, hteq, hwf, hent⟩ := ih hfoc hrest2
    refine ⟨t, ?_, hwf, ?_⟩
    · unfold insFix
      rw [if_neg (by simp [hec])]
      simp only [hgd, hgsib]
      exact hteq
    · rw [hent]
      cases hd : e.d <;>
        simp [entries_plug, entries, plugOne, ectx, hd, hgd, hgsib,
          List.append_assoc]
  | case9 z e hne g rest2 hgd hed hnotred =>
    intro n hz hp
    have hec : e.c = .red := not_not.mp hne
    obtain ⟨⟨cs, hsib, hcs⟩, hup, hrest⟩ := hp
    rw [hec] at hrest
    obtain ⟨⟨cu, husib, _⟩, _, hrest2⟩ := hrest
    obtain ⟨f, rs, hfr, hfc⟩ := hup hec
    cases hfr
    have hcsb : cs = .black := hcs hec
    rw [hcsb] at hsib
    rw [hfc, cInc] at hrest2
    generalize hu : g.sib = u at husib hnotred
    have hcu : cu = .black := by
      cases hcu2 : cu
      · rw [hcu2] at husib
        obtain ⟨l2, k2, v2, r2, heq, _, _⟩ := isRB_red_inv husib
        exact absurd heq (fun hh => hnotred _ _ _ _ hh)
      · rfl
    rw [hcu] at husib
    have hS : IsRB (node .black (node .red u g.k g.v e.sib) e.k e.v z)
        .black (n + 1) := IsRB.black (IsRB.red husib hsib) hz
    obtain ⟨m, hm⟩ := plug_RB hrest2 hS (fun _ _ _ _ => rfl) (fun _ => rfl)
    refine ⟨blacken (plug (node .black (node .red u g.k g.v e.sib) e.k e.v z)
      rest2), ?_, ⟨m, by rw [blacken_eq_of_black hm]; exact hm⟩, ?_⟩
    · unfold insFix
      rw [if_neg (by simp [hec])]
      simp only [hgd, hu, hed]
    · simp only [entries_blacken, entries_plug]
      simp [entries, ectx, hed, hgd, hu, List.append_assoc]
  | case10 e hne g rest2 hgd hed hnotred =>
    intro n hz hp
    obtain ⟨l, k, v, r, heq, _, _⟩ := isRB_red_inv hz
    cases heq
  | case11 e hne g rest2 hgd hed zc zl zk zv zr hnotred =>
    intro n hz hp
    have hec : e.c = .red := not_not.mp hne
    obtain ⟨⟨cs, hsib, hcs⟩, hup, hrest⟩ := hp
    rw [hec] at hrest
    obtain ⟨⟨cu, husib, _⟩, _, hrest2⟩ := hrest
    obtain ⟨f, rs, hfr, hfc⟩ := hup hec
    cases hfr
    have hcsb : cs = .black := hcs hec
    rw [hcsb] at hsib
    rw [hfc, cInc] at hrest2
    generalize hu : g.sib = u at husib hnotred
    have hcu : cu = .black := by
      cases hcu2 : cu
      · rw [hcu2] at husib
        obtain ⟨l2, k2, v2, r2, heq, _, _⟩ := isRB_red_inv husib
        exact absurd heq (fun hh => hnotred _ _ _ _ hh)
      · rfl
    rw [hcu] at husib
    obtain ⟨l2, k2, v2, r2, heq, hzl, hzr⟩ := isRB_red_inv hz
    injection heq with _ h1 h2 h3 h4
    subst h1; subst h2; subst h3; subst h4
    have hS : IsRB (node .black (node .red u g.k g.v zl) zk zv
        (node .red zr e.k e.v e.sib)) .black (n + 1) :=
      IsRB.black (IsRB.red husib hzl) (IsRB.red hzr hsib)
    obtain ⟨m, hm⟩ := plug_RB hrest2 hS (fun _ _ _ _ => rfl) (fun _ => rfl)
    refine ⟨blacken (plug (node .black (node .red u g.k g.v zl) zk zv
      (node .red zr e.k e.v e.sib)) rest2), ?_,
      ⟨m, by rw [blacken_eq_of_black hm]; exact hm⟩, ?_⟩
    · unfold insFix
      rw [if_neg (by simp [hec])]
      simp only [hgd, hu, hed]
    · simp only [entries_blacken, entries_plug]
      simp [entries, ectx, hed, hgd, hu, List.append_assoc]
end Tree


namespace Tree

variable {α : Type}

theorem isRB_cases_color {t : Tree α} {c : Color} {n : Nat} (h : IsRB t c n) :
    c = .red ∨ c = .black := by
  cases c
  · exact Or.inl rfl
  · exact Or.inr rfl

/-- Specification of the terminating "sibling has a red child" branch of the
remove fix-up, left side: under valid inputs it returns a valid tree whose
in-order entries are those of the parent subtree plugged into the remaining
chain. -/
theorem remFixCDL_spec (x : Tree α) (pc : Color) (pk : Int) (pv : α)
    (wl : Tree α) (wk : Int) (wv : α) (wr : Tree α) (rest : List (Ctx α))
    {hb : Nat} {cwl cwr : Color}
    (hx : IsRB x .black hb) (hwl : IsRB wl cwl hb) (hwr : IsRB wr cwr hb)
    (hrd : wl.isRed = true ∨ wr.isRed = true)
    (hrest : CtxOK rest (hb + 1 + cInc pc))
    (hup : pc = .red → ∃ f rs, rest = f :: rs ∧ f.c = .black) :
    ∃ t, remFixCDL x pc pk pv wl wk wv wr rest = some t ∧
      (∃ m, IsRB t .black m) ∧
      entries t = (ectx rest).1 ++ (entries x ++ (pk, pv) ::
        (entries wl ++ (wk, wv) :: entries wr)) ++ (ectx rest).2 := by
  have hhead : ∀ f rs, rest = f :: rs → f.c = .red → pc = .black := by
    intro f rs hf hfc
    cases pc
    · obtain ⟨f2, rs2, hf2, hc2⟩ := hup rfl
      rw [hf] at hf2
      injection hf2 with h1 _
      rw [h1] at hfc
      rw [hfc] at hc2
      cases hc2
    · rfl
  have hnil : rest = [] → pc = .black := by
    intro hr
    cases pc
    · obtain ⟨f2, rs2, hf2, _⟩ := hup rfl
      rw [hr] at hf2
      cases hf2
    · rfl
  by_cases hwrr : wr.isRed = true
  · -- CLRS case 4 directly: w's right child is red
    have hcwr : cwr = .red := (isRB_isRed hwr).mp hwrr
    rw [hcwr] at hwr
    obtain ⟨a2, rk, rv, b2, heq, ha2, hb2⟩ := isRB_red_inv hwr
    have hS : IsRB (node pc (node .black x pk pv wl) wk wv (blacken wr))
        pc (hb + 1 + cInc pc) := by
      rw [heq]
      have hL : IsRB (node .black x pk pv wl) .black (hb + 1) :=
        IsRB.black hx hwl
      have hR : IsRB (blacken (node .red a2 rk rv b2)) .black (hb + 1) :=
        IsRB.black ha2 hb2
      cases pc
      · exact IsRB.red hL hR
      · exact IsRB.black hL hR
    obtain ⟨m, hm⟩ := plug_RB hrest hS hhead hnil
    refine ⟨blacken (plug (node pc (node .black x pk pv wl) wk wv
      (blacken wr)) rest), ?_, ⟨m, by rw [blacken_eq_of_black hm]; exact hm⟩, ?_⟩
    · unfold remFixCDL
      rw [if_neg (by simp [hwrr])]
    · rw [entries_blacken, entries_plug]
      rw [heq]
      simp [entries, entries_blacken, List.append_assoc]
  · -- CLRS case 3 then 4: w's left child is red, inner rotation first
    have hwlr : wl.isRed = true := by
      rcases hrd with h | h
      · exact h
      · exact absurd h hwrr
    have hcwl : cwl = .red := (isRB_isRed hwl).mp hwlr
    rw [hcwl] at hwl
    obtain ⟨a, lk, lv, b, heq, ha, hbb⟩ := isRB_red_inv hwl
    have hS : IsRB (node pc (node .black x pk pv a) lk lv
        (blacken (node .red b wk wv wr))) pc (hb + 1 + cInc pc) := by
      have hL : IsRB (node .black x pk pv a) .black (hb + 1) :=
        IsRB.black hx ha
      have hR : IsRB (blacken (node .red b wk wv wr)) .black (hb + 1) :=
        IsRB.black hbb hwr
      cases pc
      · exact IsRB.red hL hR
      · exact IsRB.black hL hR
    obtain ⟨m, hm⟩ := plug_RB hrest hS hhead hnil
    refine ⟨blacken (plug (node pc (node .black x pk pv a) lk lv
      (blacken (node .red b wk wv wr))) rest), ?_,
      ⟨m, by rw [blacken_eq_of_black hm]; exact hm⟩, ?_⟩
    · unfold remFixCDL
      rw [if_pos (by simp [hwrr]), heq]
    · rw [entries_blacken, entries_plug, heq]
      simp [entries, entries_blacken, List.append_assoc]

/-- Mirror image of `remFixCDL_spec`. -/
theorem remFixCDR_spec (x : Tree α) (pc : Color) (pk : Int) (pv : α)
    (wl : Tree α) (wk : Int) (wv : α) (wr : Tree α) (rest : List (Ctx α))
    {hb : Nat} {cwl cwr : Color}
    (hx : IsRB x .black hb) (hwl : IsRB wl cwl hb) (hwr : IsRB wr cwr hb)
    (hrd : wl.isRed = true ∨ wr.isRed = true)
    (hrest : CtxOK rest (hb + 1 + cInc pc))
    (hup : pc = .red → ∃ f rs, rest = f :: rs ∧ f.c = .black) :
    ∃ t, remFixCDR x pc pk pv wl wk wv wr rest = some t ∧
      (∃ m, IsRB t .black m) ∧
      entries t = (ectx rest).1 ++ ((entries wl ++ (wk, wv) :: entries wr)
        ++ (pk, pv) :: entries x) ++ (ectx rest).2 := by
  have hhead : ∀ f rs, rest = f :: rs → f.c = .red → pc = .black := by
    intro f rs hf hfc
    cases pc
    · obtain ⟨f2, rs2, hf2, hc2⟩ := hup rfl
      rw [hf] at hf2
      injection hf2 with h1 _
      rw [h1] at hfc
      rw [hfc] at hc2
      cases hc2
    · rfl
  have hnil : rest = [] → pc = .black := by
    intro hr
    cases pc
    · obtain ⟨f2, rs2, hf2, _⟩ := hup rfl
      rw [hr] at hf2
      cases hf2
    · rfl
  by_cases hwlr : wl.isRed = true
  · have hcwl : cwl = .red := (isRB_isRed hwl).mp hwlr
    rw [hcwl] at hwl
    obtain ⟨a2, lk2, lv2, b2, heq, ha2, hb2⟩ := isRB_red_inv hwl
    have hS : IsRB (node pc (blacken wl) wk wv (node .black wr pk pv x))
        pc (hb + 1 + cInc pc) := by
      rw [heq]
      have hL : IsRB (blacken (node .red a2 lk2 lv2 b2)) .black (hb + 1) :=
        IsRB.black ha2 hb2
      have hR : IsRB (node .black wr pk pv x) .black (hb + 1) :=
        IsRB.black hwr hx
      cases pc
      · exact IsRB.red hL hR
      · exact IsRB.black hL hR
    obtain ⟨m, hm⟩ := plug_RB hrest hS hhead hnil
    refine ⟨blacken (plug (node pc (blacken wl) wk wv
      (node .black wr pk pv x)) rest), ?_,
      ⟨m, by rw [blacken_eq_of_black hm]; exact hm⟩, ?_⟩
    · unfold remFixCDR
      rw [if_neg (by simp [hwlr])]
    · rw [entries_blacken, entries_plug, heq]
      simp [entries, entries_blacken, List.append_assoc]
  · have hwrr : wr.isRed = true := by
      rcases hrd with h | h
      · exact absurd h hwlr
      · exact h
    have hcwr : cwr = .red := (isRB_isRed hwr).mp hwrr
    rw [hcwr] at hwr
    obtain ⟨a, rk, rv, b, heq, ha, hbb⟩ := isRB_red_inv hwr
    have hS : IsRB (node pc (blacken (node .red wl wk wv a)) rk rv
        (node .black b pk pv x)) pc (hb + 1 + cInc pc) := by
      have hL : IsRB (blacken (node .red wl wk wv a)) .black (hb + 1) :=
        IsRB.black hwl ha
      have hR : IsRB (node .black b pk pv x) .black (hb + 1) :=
        IsRB.black hbb hx
      cases pc
      · exact IsRB.red hL hR
      · exact IsRB.black hL hR
    obtain ⟨m, hm⟩ := plug_RB hrest hS hhead hnil
    refine ⟨blacken (plug (node pc (blacken (node .red wl wk wv a)) rk rv
      (node .black b pk pv x)) rest), ?_,
      ⟨m, by rw [blacken_eq_of_black hm]; exact hm⟩, ?_⟩
    · unfold remFixCDR
      rw [if_pos (by simp [hwlr]), heq]
    · rw [entries_blacken, entries_plug, heq]
      simp [entries, entries_blacken, List.append_assoc]

end Tree


namespace Tree

variable {α : Type}

theorem isRB_nil_succ {c : Color} {n : Nat} (h : IsRB (nil : Tree α) c (n + 1)) :
    False := by
  exact absurd (isRB_nil_inv h).2 (Nat.succ_ne_zero n)

theorem red_or_of_not_both {a b : Bool} (h : ¬(¬ a = true ∧ ¬ b = true)) :
    a = true ∨ b = true := by
  by_cases h1 : a = true
  · exact Or.inl h1
  · by_cases h2 : b = true
    · exact Or.inr h2
    · exact absurd ⟨h1, h2⟩ h

theorem remFix_spec {x : Tree α} {p : List (Ctx α)} :
    ∀ {hb : Nat}, IRB x hb → CtxOK p (hb + 1) →
    ∃ t, remFix x p = some t ∧ (∃ m, IsRB t .black m) ∧
      entries t = entries (plug x p) := by
  induction x, p using remFix.induct with
  | case1 t =>
    intro hb hx hp
    exact ⟨blacken t, rfl, irb_blacken hx, entries_blacken t⟩
  | case2 t e p hred =>
    intro hb hx hp
    have hbk : IsRB (blacken t) .black (hb + 1) := irb_red_blacken hx hred
    obtain ⟨m, hm⟩ := plug_RB hp hbk (fun _ _ _ _ => rfl) (by intro h; cases h)
    refine ⟨plug (blacken t) (e :: p), ?_, ⟨m, hm⟩, ?_⟩
    · unfold remFix; rw [if_pos hred]
    · simp [entries_plug, entries_blacken]
  | case3 t e p hnr hed w wk wv wr =>
    rename_i hw
    intro hb hx hp
    obtain ⟨⟨cs, hsib, hcs⟩, hup, hrest⟩ := hp
    unfold_let w at hw
    simp only [hed] at hw
    rw [hw] at hsib
    have hcsc : cs = .red := isRB_node_color hsib
    rw [hcsc] at hsib
    obtain ⟨l2, k2, v2, r2, heq2, hl2, hr2⟩ := isRB_red_inv hsib
    injection heq2 with _ h1 h2 h3 h4
    subst h1
    exact absurd hl2 (fun hh => isRB_nil_succ hh)
  | case4 t e p hnr hed w wk wv wr a l k v r hboth =>
    rename_i hw
    intro hb hx hp
    have hxb : IsRB t .black hb := irb_not_red hx hnr
    obtain ⟨⟨cs, hsib, hcs⟩, hup, hrest⟩ := hp
    unfold_let w at hw
    simp only [hed] at hw
    rw [hw] at hsib
    have hcsc : cs = .red := isRB_node_color hsib
    rw [hcsc] at hsib
    obtain ⟨w1, w2, w3, w4, heq2, hwl, hwr⟩ := isRB_red_inv hsib
    injection heq2 with _ h1 h2 h3 h4
    subst h1; subst h2; subst h3; subst h4
    obtain ⟨cl, cr, l2, k2, v2, r2, heq3, hl, hr⟩ := isRB_black_succ_inv hwl
    injection heq3 with h0 h1 h2 h3 h4
    subst h1; subst h2; subst h3; subst h4
    have hclb : cl = .black := isRB_not_red hl hboth.1
    have hcrb : cr = .black := isRB_not_red hr hboth.2
    have hecb : e.c = .black := by
      cases hce : e.c
      · have hcb := hcs hce; rw [hcsc] at hcb; cases hcb
      · rfl
    have hF : IsRB (node .black t e.k e.v (node .red l k v r)) .black (hb + 1) :=
      IsRB.black hxb (IsRB.red (hclb ▸ hl) (hcrb ▸ hr))
    have hge : CtxOK ((⟨.left, .black, wk, wv, wr⟩ : Ctx α) :: p) (hb + 1) := by
      refine ⟨⟨.black, hwr, fun _ => rfl⟩, ?_, ?_⟩
      · intro h; simp at h
      · rw [hecb] at hrest
        exact hrest
    obtain ⟨m, hm⟩ := plug_RB hge hF (fun _ _ _ _ => rfl) (fun _ => rfl)
    refine ⟨plug (node .black t e.k e.v (node .red l k v r))
      ((⟨.left, .black, wk, wv, wr⟩ : Ctx α) :: p), ?_, ⟨m, hm⟩, ?_⟩
    · unfold remFix
      rw [if_neg hnr]
      simp only [hed, hw]
      rw [if_pos hboth]
    · simp [entries_plug, entries, ectx, hed, hw, List.append_assoc]
  | case5 t e p hnr hed w wk wv wr a l k v r hnboth =>
    rename_i hw
    intro hb hx hp
    have hxb : IsRB t .black hb := irb_not_red hx hnr
    obtain ⟨⟨cs, hsib, hcs⟩, hup, hrest⟩ := hp
    unfold_let w at hw
    simp only [hed] at hw
    rw [hw] at hsib
    have hcsc : cs = .red := isRB_node_color hsib
    rw [hcsc] at hsib
    obtain ⟨w1, w2, w3, w4, heq2, hwl, hwr⟩ := isRB_red_inv hsib
    injection heq2 with _ h1 h2 h3 h4
    subst h1; subst h2; subst h3; subst h4
    obtain ⟨cl, cr, l2, k2, v2, r2, heq3, hl, hr⟩ := isRB_black_succ_inv hwl
    injection heq3 with h0 h1 h2 h3 h4
    subst h1; subst h2; subst h3; subst h4
    have hecb : e.c = .black := by
      cases hce : e.c
      · have hcb := hcs hce; rw [hcsc] at hcb; cases hcb
      · rfl
    have hge : CtxOK ((⟨.left, .black, wk, wv, wr⟩ : Ctx α) :: p) (hb + 1) := by
      refine ⟨⟨.black, hwr, fun _ => rfl⟩, ?_, ?_⟩
      · intro h; simp at h
      · rw [hecb] at hrest
        exact hrest
    obtain ⟨t2, ht2, hwf2, hent2⟩ := remFixCDL_spec t .red e.k e.v l k v r
      ((⟨.left, .black, wk, wv, wr⟩ : Ctx α) :: p)
      hxb hl hr (red_or_of_not_both hnboth) hge (fun _ => ⟨_, _, rfl, rfl⟩)
    refine ⟨t2, ?_, hwf2, ?_⟩
    · unfold remFix
      rw [if_neg hnr]
      simp only [hed, hw]
      rw [if_neg hnboth]
      exact ht2
    · rw [hent2]
      simp [entries_plug, entries, ectx, hed, hw, List.append_assoc]
  | case6 t e p hnr hed w wl wk wv wr hw hboth =>
    rename_i ih
    intro hb hx hp
    have hxb : IsRB t .black hb := irb_not_red hx hnr
    obtain ⟨⟨cs, hsib, hcs⟩, hup, hrest⟩ := hp
    unfold_let w at hw
    simp only [hed] at hw
    rw [hw] at hsib
    have hcsb : cs = .black := isRB_node_color hsib
    rw [hcsb] at hsib
    obtain ⟨cl, cr, l2, k2, v2, r2, heq3, hl, hr⟩ := isRB_black_succ_inv hsib
    injection heq3 with h0 h1 h2 h3 h4
    subst h1; subst h2; subst h3; subst h4
    have hclb : cl = .black := isRB_not_red hl hboth.1
    have hcrb : cr = .black := isRB_not_red hr hboth.2
    have hred2 : IsRB (node .red wl wk wv wr) .red hb :=
      IsRB.red (hclb ▸ hl) (hcrb ▸ hr)
    have hkey : ∃ t2, remFix (node e.c t e.k e.v (node .red wl wk wv wr)) p
        = some t2 ∧ (∃ m, IsRB t2 .black m) ∧
        entries t2 = entries (plug (node e.c t e.k e.v
          (node .red wl wk wv wr)) p) := by
      cases hec : e.c with
      | red =>
        have hF : IRB (node e.c t e.k e.v (node .red wl wk wv wr)) hb := by
          rw [hec]
          exact Or.inr ⟨t, e.k, e.v, _, .black, .red, rfl, hxb, hred2⟩
        rw [hec] at hrest
        exact hec ▸ ih hF hrest
      | black =>
        have hF : IsRB (node e.c t e.k e.v (node .red wl wk wv wr))
            .black (hb + 1) := by
          rw [hec]
          exact IsRB.black hxb hred2
        rw [hec] at hrest
        exact hec ▸ ih (Or.inl ⟨_, hF⟩) hrest
    obtain ⟨t2, ht2, hwf2, hent2⟩ := hkey
    refine ⟨t2, ?_, hwf2, ?_⟩
    · unfold remFix
      rw [if_neg hnr]
      simp only [hed, hw]
      rw [if_pos hboth]
      exact ht2
    · rw [hent2]
      simp [entries_plug, entries, plug, plugOne, ectx, hed, hw,
        List.append_assoc]
  | case7 t e p hnr hed w wl wk wv wr hw =>
    rename_i hnboth
    intro hb hx hp
    have hxb : IsRB t .black hb := irb_not_red hx hnr
    obtain ⟨⟨cs, hsib, hcs⟩, hup, hrest⟩ := hp
    unfold_let w at hw
    simp only [hed] at hw
    rw [hw] at hsib
    have hcsb : cs = .black := isRB_node_color hsib
    rw [hcsb] at hsib
    obtain ⟨cl, cr, l2, k2, v2, r2, heq3, hl, hr⟩ := isRB_black_succ_inv hsib
    injection heq3 with h0 h1 h2 h3 h4
    subst h1; subst h2; subst h3; subst h4
    obtain ⟨t2, ht2, hwf2, hent2⟩ := remFixCDL_spec t e.c e.k e.v wl wk wv wr
      p hxb hl hr (red_or_of_not_both hnboth) hrest hup
    refine ⟨t2, ?_, hwf2, ?_⟩
    · unfold remFix
      rw [if_neg hnr]
      simp only [hed, hw]
      rw [if_neg hnboth]
      exact ht2
    · rw [hent2]
      simp [entries_plug, entries, ectx, hed, hw, List.append_assoc]
  | case8 t e p hnr hed w =>
    rename_i hw
    intro hb hx hp
    obtain ⟨⟨cs, hsib, hcs⟩, hup, hrest⟩ := hp
    unfold_let w at hw
    simp only [hed] at hw
    rw [hw] at hsib
    exact absurd hsib (fun hh => isRB_nil_succ hh)
  | case9 e p hsibnil hed w wk wv wr hnr2 =>
    rename_i hw
    intro hb hx hp
    unfold_let w at hw
    simp only [hed] at hw
    exact absurd hw (by simp)
  | case10 e p hsibnil hed w wk wv wr a l k v r hboth hnr2 =>
    rename_i hw
    intro hb hx hp
    unfold_let w at hw
    simp only [hed] at hw
    exact absurd hw (by simp)
  | case11 e p hsibnil hed w wk wv wr a l k v r hnboth hnr2 =>
    rename_i hw
    intro hb hx hp
    unfold_let w at hw
    simp only [hed] at hw
    exact absurd hw (by simp)
  | case12 e p hsibnil hed w wl wk wv wr hw hboth hnr2 =>
    rename_i ih
    intro hb hx hp
    unfold_let w at hw
    simp only [hed] at hw
    exact absurd hw (by simp)
  | case13 e p hsibnil hed w wl wk wv wr hw hnboth =>
    rename_i hnr2
    intro hb hx hp
    unfold_let w at hw
    simp only [hed] at hw
    exact absurd hw (by simp)
  | case14 e p hsibnil hed w hnr2 =>
    rename_i hw
    intro hb hx hp
    obtain ⟨⟨cs, hsib, hcs⟩, hup, hrest⟩ := hp
    rw [hsibnil] at hsib
    exact absurd hsib (fun hh => isRB_nil_succ hh)
  | case15 t e p hnr hed w wl wk wv hfalse =>
    rename_i hw
    intro hb hx hp
    obtain ⟨⟨cs, hsib, hcs⟩, hup, hrest⟩ := hp
    unfold_let w at hw
    rw [hw] at hsib
    have hcsc : cs = .red := isRB_node_color hsib
    rw [hcsc] at hsib
    obtain ⟨l2, k2, v2, r2, heq2, hl2, hr2⟩ := isRB_red_inv hsib
    injection heq2 with _ h1 h2 h3 h4
    subst h4
    exact absurd hr2 (fun hh => isRB_nil_succ hh)
  | case16 t e p hnr hed w wl wk wv a l k v r hboth hfalse =>
    rename_i hw
    intro hb hx hp
    have hxb : IsRB t .black hb := irb_not_red hx hnr
    obtain ⟨⟨cs, hsib, hcs⟩, hup, hrest⟩ := hp
    unfold_let w at hw
    rw [hw] at hsib
    have hcsc : cs = .red := isRB_node_color hsib
    rw [hcsc] at hsib
    obtain ⟨w1, w2, w3, w4, heq2, hwl, hwr⟩ := isRB_red_inv hsib
    injection heq2 with _ h1 h2 h3 h4
    subst h1; subst h2; subst h3; subst h4
    obtain ⟨cl, cr, l2, k2, v2, r2, heq3, hl, hr⟩ := isRB_black_succ_inv hwr
    injection heq3 with h0 h1 h2 h3 h4
    subst h1; subst h2; subst h3; subst h4
    have hclb : cl = .black := isRB_not_red hl hboth.1
    have hcrb : cr = .black := isRB_not_red hr hboth.2
    have hecb : e.c = .black := by
      cases hce : e.c
      · have hcb := hcs hce; rw [hcsc] at hcb; cases hcb
      · rfl
    have hF : IsRB (node .black (node .red l k v r) e.k e.v t) .black (hb + 1) :=
      IsRB.black (IsRB.red (hclb ▸ hl) (hcrb ▸ hr)) hxb
    have hge : CtxOK ((⟨.right, .black, wk, wv, wl⟩ : Ctx α) :: p) (hb + 1) := by
      refine ⟨⟨.black, hwl, fun _ => rfl⟩, ?_, ?_⟩
      · intro h; simp at h
      · rw [hecb] at hrest
        exact hrest
    obtain ⟨m, hm⟩ := plug_RB hge hF (fun _ _ _ _ => rfl) (fun _ => rfl)
    refine ⟨plug (node .black (node .red l k v r) e.k e.v t)
      ((⟨.right, .black, wk, wv, wl⟩ : Ctx α) :: p), ?_, ⟨m, hm⟩, ?_⟩
    · unfold remFix
      rw [if_neg hnr]
      cases t <;> simp only [hed, hw] <;> rw [if_pos hboth]
    · simp [entries_plug, entries, ectx, hed, hw, List.append_assoc]
  | case17 t e p hnr hed w wl wk wv a l k v r hnboth hfalse =>
    rename_i hw
    intro hb hx hp
    have hxb : IsRB t .black hb := irb_not_red hx hnr
    obtain ⟨⟨cs, hsib, hcs⟩, hup, hrest⟩ := hp
    unfold_let w at hw
    rw [hw] at hsib
    have hcsc : cs = .red := isRB_node_color hsib
    rw [hcsc] at hsib
    obtain ⟨w1, w2, w3, w4, heq2, hwl, hwr⟩ := isRB_red_inv hsib
    injection heq2 with _ h1 h2 h3 h4
    subst h1; subst h2; subst h3; subst h4
    obtain ⟨cl, cr, l2, k2, v2, r2, heq3, hl, hr⟩ := isRB_black_succ_inv hwr
    injection heq3 with h0 h1 h2 h3 h4
    subst h1; subst h2; subst h3; subst h4
    have hecb : e.c = .black := by
      cases hce : e.c
      · have hcb := hcs hce; rw [hcsc] at hcb; cases hcb
      · rfl
    have hge : CtxOK ((⟨.right, .black, wk, wv, wl⟩ : Ctx α) :: p) (hb + 1) := by
      refine ⟨⟨.black, hwl, fun _ => rfl⟩, ?_, ?_⟩
      · intro h; simp at h
      · rw [hecb] at hrest
        exact hrest
    obtain ⟨t2, ht2, hwf2, hent2⟩ := remFixCDR_spec t .red e.k e.v l k v r
      ((⟨.right, .black, wk, wv, wl⟩ : Ctx α) :: p)
      hxb hl hr (red_or_of_not_both hnboth) hge (fun _ => ⟨_, _, rfl, rfl⟩)
    refine ⟨t2, ?_, hwf2, ?_⟩
    · unfold remFix
      rw [if_neg hnr]
      cases t <;> simp only [hed, hw] <;> rw [if_neg hnboth] <;> exact ht2
    · rw [hent2]
      simp [entries_plug, entries, ectx, hed, hw, List.append_assoc]
  | case18 t e p hnr hed w wl wk wv wr hw hboth hfalse =>
    rename_i ih
    intro hb hx hp
    have hxb : IsRB t .black hb := irb_not_red hx hnr
    obtain ⟨⟨cs, hsib, hcs⟩, hup, hrest⟩ := hp
    unfold_let w at hw
    rw [hw] at hsib
    have hcsb : cs = .black := isRB_node_color hsib
    rw [hcsb] at hsib
    obtain ⟨cl, cr, l2, k2, v2, r2, heq3, hl, hr⟩ := isRB_black_succ_inv hsib
    injection heq3 with h0 h1 h2 h3 h4
    subst h1; subst h2; subst h3; subst h4
    have hclb : cl = .black := isRB_not_red hl hboth.2
    have hcrb : cr = .black := isRB_not_red hr hboth.1
    have hred2 : IsRB (node .red wl wk wv wr) .red hb :=
      IsRB.red (hclb ▸ hl) (hcrb ▸ hr)
    have hkey : ∃ t2, remFix (node e.c (node .red wl wk wv wr) e.k e.v t) p
        = some t2 ∧ (∃ m, IsRB t2 .black m) ∧
        entries t2 = entries (plug (node e.c (node .red wl wk wv wr)
          e.k e.v t) p) := by
      cases hec : e.c with
      | red =>
        have hF : IRB (node e.c (node .red wl wk wv wr) e.k e.v t) hb := by
          rw [hec]
          exact Or.inr ⟨_, e.k, e.v, t, .red, .black, rfl, hred2, hxb⟩
        rw [hec] at hrest
        exact hec ▸ ih hF hrest
      | black =>
        have hF : IsRB (node e.c (node .red wl wk wv wr) e.k e.v t)
            .black (hb + 1) := by
          rw [hec]
          exact IsRB.black hred2 hxb
        rw [hec] at hrest
        exact hec ▸ ih (Or.inl ⟨_, hF⟩) hrest
    obtain ⟨t2, ht2, hwf2, hent2⟩ := hkey
    refine ⟨t2, ?_, hwf2, ?_⟩
    · unfold remFix
      rw [if_neg hnr]
      cases t <;> simp only [hed, hw] <;> rw [if_pos hboth] <;> exact ht2
    · rw [hent2]
      simp [entries_plug, entries, plug, plugOne, ectx, hed, hw,
        List.append_assoc]
  | case19 t e p hnr hed w wl wk wv wr hw hnboth =>
    rename_i hfalse
    intro hb hx hp
    have hxb : IsRB t .black hb := irb_not_red hx hnr
    obtain ⟨⟨cs, hsib, hcs⟩, hup, hrest⟩ := hp
    unfold_let w at hw
    rw [hw] at hsib
    have hcsb : cs = .black := isRB_node_color hsib
    rw [hcsb] at hsib
    obtain ⟨cl, cr, l2, k2, v2, r2, heq3, hl, hr⟩ := isRB_black_succ_inv hsib
    injection heq3 with h0 h1 h2 h3 h4
    subst h1; subst h2; subst h3; subst h4
    obtain ⟨t2, ht2, hwf2, hent2⟩ := remFixCDR_spec t e.c e.k e.v wl wk wv wr
      p hxb hl hr ((red_or_of_not_both hnboth).symm) hrest hup
    refine ⟨t2, ?_, hwf2, ?_⟩
    · unfold remFix
      rw [if_neg hnr]
      cases t <;> simp only [hed, hw] <;> rw [if_neg hnboth] <;> exact ht2
    · rw [hent2]
      simp [entries_plug, entries, ectx, hed, hw, List.append_assoc]
  | case20 t e p hnr hed w hw =>
    rename_i hfalse
    intro hb hx hp
    obtain ⟨⟨cs, hsib, hcs⟩, hup, hrest⟩ := hp
    unfold_let w at hw
    rw [hw] at hsib
    exact absurd hsib (fun hh => isRB_nil_succ hh)

end Tree


namespace Tree

variable {α : Type}

theorem isRB_node_inv {cc : Color} {l : Tree α} {k : Int} {v : α}
    {r : Tree α} {c : Color} {n : Nat}
    (h : IsRB (node cc l k v r) c n) :
    ∃ cl cr m, IsRB l cl m ∧ IsRB r cr m ∧ n = m + cInc cc ∧ c = cc ∧
      (cc = .red → cl = .black ∧ cr = .black) := by
  cases h with
  | red hl hr => exact ⟨_, _, _, hl, hr, rfl, rfl, fun _ => ⟨rfl, rfl⟩⟩
  | black hl hr =>
    exact ⟨_, _, _, hl, hr, rfl, rfl, fun hh => nomatch hh⟩

theorem delMin_isSome : ∀ (t : Tree α) (acc : List (Ctx α)), t ≠ nil →
    (delMin t acc).isSome = true
  | nil, _, hne => absurd rfl hne
  | node c l k v r, acc, _ => by
    cases l with
    | nil => simp [delMin]
    | node cl ll lk lv lr =>
      simpa [delMin] using
        delMin_isSome (node cl ll lk lv lr) (⟨.left, c, k, v, r⟩ :: acc)
          (by simp)

theorem delMin_shift : ∀ (t : Tree α) (acc : List (Ctx α)),
    delMin t acc = (delMin t []).map
      (fun o => (o.1, o.2.1, o.2.2.1, o.2.2.2.1, o.2.2.2.2 ++ acc))
  | nil, _ => rfl
  | node c l k v r, acc => by
    cases l with
    | nil => simp [delMin]
    | node cl ll lk lv lr =>
      rw [show delMin (node c (node cl ll lk lv lr) k v r) acc
            = delMin (node cl ll lk lv lr) (⟨.left, c, k, v, r⟩ :: acc)
          from rfl,
        show delMin (node c (node cl ll lk lv lr) k v r) []
            = delMin (node cl ll lk lv lr) [⟨.left, c, k, v, r⟩] from rfl,
        delMin_shift (node cl ll lk lv lr) (⟨.left, c, k, v, r⟩ :: acc),
        delMin_shift (node cl ll lk lv lr) [⟨.left, c, k, v, r⟩]]
      cases delMin (node cl ll lk lv lr) [] with
      | none => rfl
      | some o => simp

/-- Specification of the successor-splice walk: it returns the leftmost
(minimum) node's data, its right child (black-height 0), and the parent
chain of the removed position; the chain is valid for a hole of the
minimum's black contribution, and the minimum's entry is the first of the
subtree's in-order sequence. -/
theorem delMin_spec {t : Tree α} :
    ∀ {c : Color} {m : Nat} {q : List (Ctx α)},
    IsRB t c m → t ≠ nil → CtxOK q m →
    (c = .red → ∃ f rs, q = f :: rs ∧ f.c = .black) →
    ∃ yc yk yv yr sp cy, delMin t q = some (yc, yk, yv, yr, sp ++ q) ∧
      IsRB yr cy 0 ∧ (yc = .red → cy = .black) ∧
      CtxOK (sp ++ q) (cInc yc) ∧
      entries t = (yk, yv) :: entries (plug yr sp) := by
  induction t with
  | nil =>
    intro c m q ht hne hq hhead
    exact absurd rfl hne
  | node c0 l k v r ihl ihr =>
    intro c m q ht hne hq hhead
    obtain ⟨cl, cr, m0, hl, hr, hm, hc, hredc⟩ := isRB_node_inv ht
    subst hm; subst hc
    cases l with
    | nil =>
      have hm0 : m0 = 0 := (isRB_nil_inv hl).2
      subst hm0
      refine ⟨c, k, v, r, [], cr, ?_, hr, ?_, ?_, ?_⟩
      · simp [delMin]
      · intro hc0
        exact (hredc hc0).2
      · simpa [cInc] using hq
      · simp [entries, plug]
    | node cl2 ll lk lv lr =>
      have hql : CtxOK ((⟨.left, c, k, v, r⟩ : Ctx α) :: q) m0 := by
        refine ⟨⟨cr, hr, fun hh => (hredc hh).2⟩, ?_, ?_⟩
        · intro hh
          exact hhead hh
        · exact hq
      have hheadl : cl = .red →
          ∃ f rs, (⟨.left, c, k, v, r⟩ : Ctx α) :: q = f :: rs ∧
            f.c = .black := by
        intro hclred
        refine ⟨_, _, rfl, ?_⟩
        cases hc0 : c
        · have := (hredc hc0).1
          rw [this] at hclred
          cases hclred
        · rfl
      obtain ⟨yc, yk, yv, yr, sp, cy, heq, hyr, hycred, hctx, hent⟩ :=
        ihl hl (by simp) hql hheadl
      refine ⟨yc, yk, yv, yr, sp ++ [⟨.left, c, k, v, r⟩], cy, ?_, hyr,
        hycred, ?_, ?_⟩
      · rw [show delMin (node c (node cl2 ll lk lv lr) k v r) q
            = delMin (node cl2 ll lk lv lr) (⟨.left, c, k, v, r⟩ :: q)
            from rfl, heq]
        simp
      · simpa [List.append_assoc] using hctx
      · rw [show entries (node c (node cl2 ll lk lv lr) k v r)
            = entries (node cl2 ll lk lv lr) ++ (k, v) :: entries r from rfl,
          hent, plug_append]
        simp [plug, plugOne, entries]

end Tree


namespace Tree

variable {α : Type}

/-- The common descent loop lands on either a null slot or a node whose key
is an exact comparator match; the zipper it builds reassembles to the
original tree, stays on the search path of `k`, and is a valid context. -/
theorem seek_spec (k : Int) {t : Tree α} :
    ∀ {p : List (Ctx α)} {c : Color} {n : Nat},
    IsRB t c n → CtxOK p n →
    (isRed t = true → ∃ f rs, p = f :: rs ∧ f.c = .black) →
    (p = [] → c = .black) → Guides k p →
    plug (seek t k p).1 (seek t k p).2 = plug t p ∧
    Guides k (seek t k p).2 ∧
    (∀ c3 l2 k2 v2 r2, (seek t k p).1 = node c3 l2 k2 v2 r2 → k2 = k) ∧
    ∃ c2 n2, IsRB (seek t k p).1 c2 n2 ∧ CtxOK (seek t k p).2 n2 ∧
      (isRed (seek t k p).1 = true →
        ∃ f rs, (seek t k p).2 = f :: rs ∧ f.c = .black) ∧
      ((seek t k p).2 = [] → c2 = .black) := by
  induction t with
  | nil =>
    intro p c n ht hp hred hnil hg
    obtain ⟨hcb, hn0⟩ := isRB_nil_inv ht
    subst hcb; subst hn0
    refine ⟨rfl, hg, ?_, .black, 0, IsRB.nil, hp, ?_, fun _ => rfl⟩
    · intro c3 l2 k2 v2 r2 hh
      exact absurd hh (by simp [seek])
    · intro hh
      simp [seek, isRed] at hh
  | node c0 l k0 v0 r ihl ihr =>
    intro p c n ht hp hred hnil hg
    obtain ⟨cl, cr, m0, hl, hr, hm, hc, hredc⟩ := isRB_node_inv ht
    subst hm; subst hc
    by_cases hk : k = k0
    · subst hk
      rw [show seek (node c l k v0 r) k p = (node c l k v0 r, p) from by
        simp [seek]]
      refine ⟨rfl, hg, ?_, c, m0 + cInc c, ht, hp, hred, hnil⟩
      intro c3 l2 k2 v2 r2 hh
      injection hh with _ _ h2 _ _
      exact h2.symm
    · by_cases hlt : k < k0
      · have hql : CtxOK ((⟨.left, c, k0, v0, r⟩ : Ctx α) :: p) m0 := by
          refine ⟨⟨cr, hr, fun hh => (hredc hh).2⟩, ?_, hp⟩
          intro hh
          have hh2 : c = .red := hh
          exact hred (by rw [hh2]; rfl)
        have hredl : isRed l = true →
            ∃ f rs, (⟨.left, c, k0, v0, r⟩ : Ctx α) :: p = f :: rs ∧
              f.c = .black := by
          intro hlr
          refine ⟨_, _, rfl, ?_⟩
          cases hc0 : c
          · have h2 := (isRB_isRed hl).mp hlr
            rw [(hredc hc0).1] at h2
            exact absurd h2 (by simp)
          · rfl
        have := ihl hl hql hredl (by intro hh; cases hh) ⟨hlt, hg⟩
        simpa [seek, hk, hlt] using this
      · have hqr : CtxOK ((⟨.right, c, k0, v0, l⟩ : Ctx α) :: p) m0 := by
          refine ⟨⟨cl, hl, fun hh => (hredc hh).1⟩, ?_, hp⟩
          intro hh
          have hh2 : c = .red := hh
          exact hred (by rw [hh2]; rfl)
        have hredr : isRed r = true →
            ∃ f rs, (⟨.right, c, k0, v0, l⟩ : Ctx α) :: p = f :: rs ∧
              f.c = .black := by
          intro hrr
          refine ⟨_, _, rfl, ?_⟩
          cases hc0 : c
          · have h2 := (isRB_isRed hr).mp hrr
            rw [(hredc hc0).2] at h2
            exact absurd h2 (by simp)
          · rfl
        have := ihr hr hqr hredr (by intro hh; cases hh) ⟨show k0 < k by omega, hg⟩
        simpa [seek, hk, hlt] using this

end Tree

namespace Tree

variable {α : Type}

/-- Master specification of `map_remove`/`set_remove` on the root tree of a
valid red-black tree: the call succeeds (no null dereference in the fix-up),
preserves validity, and either leaves the tree untouched (key absent from
the search path) or removes exactly one entry with key `k` from the in-order
sequence. -/
theorem removeT_spec {t : Tree α} {n : Nat} (ht : IsRB t .black n) (k : Int) :
    ∃ b u, removeT t k = some (b, u) ∧ (∃ m, IsRB u .black m) ∧
      ((b = false ∧ u = t ∧ (seek t k []).1 = nil) ∨
       (b = true ∧ ∃ pre vz suf, entries t = pre ++ (k, vz) :: suf ∧
         entries u = pre ++ suf)) := by
  have hs := seek_spec k ht (show CtxOK ([] : List (Ctx α)) n from trivial)
      (fun hh => absurd ((isRB_isRed ht).mp hh) (by simp))
      (fun _ => rfl) trivial
  rcases hseek : seek t k [] with ⟨focus, path⟩
  rw [hseek] at hs
  obtain ⟨hplug, hguide, hkey, c2, n2, hfoc, hctx, hfred, hfnil⟩ := hs
  simp only [plug] at hplug
  cases focus with
  | nil =>
    refine ⟨false, t, ?_, ⟨n, ht⟩, Or.inl ⟨rfl, rfl, rfl⟩⟩
    unfold removeT
    rw [hseek]
  | node zc zl zk2 zv2 zr =>
    have hzk : k = zk2 := (hkey zc zl zk2 zv2 zr rfl).symm
    subst hzk
    obtain ⟨cl, cr, m0, hzl, hzr, hn2, hc2, hredc⟩ := isRB_node_inv hfoc
    subst hn2; subst hc2
    cases zl with
    | nil =>
      have hm0 : m0 = 0 := (isRB_nil_inv hzl).2
      subst hm0
      cases hzc : c2 with
      | red =>
        have hcrb : cr = .black := (hredc hzc).2
        rw [hcrb] at hzr
        have hzr2 : IsRB zr .black (0 + cInc c2) := by
          rw [hzc]; simpa [cInc] using hzr
        obtain ⟨m, hm⟩ := plug_RB hctx hzr2 (fun _ _ _ _ => rfl)
          (fun _ => rfl)
        refine ⟨true, plug zr path, ?_, ⟨m, hm⟩, Or.inr ⟨rfl,
          (ectx path).1, zv2, entries zr ++ (ectx path).2, ?_, ?_⟩⟩
        · unfold removeT
          rw [hseek, hzc]
          simp
        · rw [← hplug, entries_plug]
          simp [entries]
        · rw [entries_plug]
          simp
      | black =>
        have hctxb : CtxOK path (0 + 1) := by
          rw [hzc] at hctx; exact hctx
        obtain ⟨u, hu, hwf, hent⟩ := remFix_spec (Or.inl ⟨cr, hzr⟩) hctxb
        refine ⟨true, u, ?_, hwf, Or.inr ⟨rfl,
          (ectx path).1, zv2, entries zr ++ (ectx path).2, ?_, ?_⟩⟩
        · unfold removeT
          rw [hseek, hzc]
          simp [hu]
        · rw [← hplug, entries_plug]
          simp [entries]
        · rw [hent, entries_plug]
          simp
    | node cl2 l1 k1 v1 r1 =>
      cases zr with
      | nil =>
        have hm0 : m0 = 0 := (isRB_nil_inv hzr).2
        subst hm0
        have hzcb : c2 = .black := by
          cases hzc : c2
          · have := (hredc hzc).1
            rw [this] at hzl
            exact absurd (isRB_black_zero_inv hzl) (by simp)
          · rfl
        subst hzcb
        obtain ⟨u, hu, hwf, hent⟩ := remFix_spec (Or.inl ⟨cl, hzl⟩) hctx
        refine ⟨true, u, ?_, hwf, Or.inr ⟨rfl,
          (ectx path).1 ++ entries (node cl2 l1 k1 v1 r1), zv2,
          (ectx path).2, ?_, ?_⟩⟩
        · unfold removeT
          rw [hseek]
          simp [hu]
        · rw [← hplug, entries_plug]
          simp [entries]
        · rw [hent, entries_plug]
      | node cr2 l3 k3 v3 r3 =>
        -- two children: splice the minimum of the right subtree
        obtain ⟨out, hD0⟩ :=
          Option.isSome_iff_exists.mp
            (delMin_isSome (node cr2 l3 k3 v3 r3) [] (by simp))
        obtain ⟨yc, yk, yv, yr, sp0⟩ := out
        have hq : CtxOK ((⟨.right, c2, yk, yv,
            node cl2 l1 k1 v1 r1⟩ : Ctx α) :: path) m0 := by
          refine ⟨⟨cl, hzl, fun hh => (hredc hh).1⟩, ?_, hctx⟩
          intro hh
          exact hfred ((isRB_isRed hfoc).mpr hh)
        have hhd : cr = .red → ∃ f rs,
            (⟨.right, c2, yk, yv, node cl2 l1 k1 v1 r1⟩ : Ctx α) :: path
              = f :: rs ∧ f.c = .black := by
          intro hcrred
          refine ⟨_, _, rfl, ?_⟩
          show c2 = .black
          cases hzc : c2
          · rw [(hredc hzc).2] at hcrred
            exact absurd hcrred (by simp)
          · rfl
        obtain ⟨yc2, yk2, yv2, yr2, sp2, cy, heq2, hyr, hyred, hctx2,
          hent2⟩ := delMin_spec hzr (by simp) hq hhd
        have hshift := delMin_shift (node cr2 l3 k3 v3 r3)
          ((⟨.right, c2, yk, yv, node cl2 l1 k1 v1 r1⟩ : Ctx α) :: path)
        rw [hD0] at hshift
        rw [hshift] at heq2
        simp only [Option.map_some, Option.map_some'] at heq2
        injection heq2 with heq2
        injection heq2 with h1 heq2
        injection heq2 with h2 heq2
        injection heq2 with h3 heq2
        injection heq2 with h4 hsp
        subst h1; subst h2; subst h3; subst h4
        -- hsp : sp0 ++ (eZ :: path) = sp2 ++ (eZ :: path)
        have hctx3 : CtxOK (sp0 ++
            (⟨.right, c2, yk, yv, node cl2 l1 k1 v1 r1⟩ : Ctx α) :: path)
            (cInc yc) := by
          rw [hsp]
          exact hctx2
        have hentu : ∀ u2 : Tree α,
            entries (plug u2 (sp0 ++
              (⟨.right, c2, yk, yv, node cl2 l1 k1 v1 r1⟩ : Ctx α) :: path))
            = ((ectx path).1 ++ entries (node cl2 l1 k1 v1 r1)) ++
              ((yk, yv) :: (entries (plug u2 sp2) ++ (ectx path).2)) := by
          intro u2
          rw [hsp, plug_append, entries_plug]
          simp [plug, plugOne, ectx, entries, entries_plug,
            List.append_assoc]
        have hentt : entries t =
            ((ectx path).1 ++ entries (node cl2 l1 k1 v1 r1)) ++
              ((k, zv2) :: ((yk, yv) ::
                (entries (plug yr sp2) ++ (ectx path).2))) := by
          have hone : entries (node c2 (node cl2 l1 k1 v1 r1) k zv2
              (node cr2 l3 k3 v3 r3))
              = entries (node cl2 l1 k1 v1 r1) ++ (k, zv2) ::
                entries (node cr2 l3 k3 v3 r3) := rfl
          rw [← hplug, entries_plug, hone, hent2]
          simp [List.append_assoc]
        cases hyc : yc with
        | red =>
          have hcyb : cy = .black := hyred hyc
          rw [hcyb] at hyr
          obtain ⟨m, hm⟩ := plug_RB hctx3 (by rw [hyc]; exact hyr)
            (fun _ _ _ _ => rfl) (fun _ => rfl)
          refine ⟨true, plug yr (sp0 ++
              (⟨.right, c2, yk, yv, node cl2 l1 k1 v1 r1⟩ : Ctx α) :: path),
            ?_, ⟨m, hm⟩, Or.inr ⟨rfl,
            (ectx path).1 ++ entries (node cl2 l1 k1 v1 r1), zv2,
            (yk, yv) :: (entries (plug yr sp2) ++ (ectx path).2), ?_, ?_⟩⟩
          · unfold removeT
            rw [hseek]
            simp [hD0, hyc]
          · exact hentt
          · exact hentu yr
        | black =>
          have hctx4 : CtxOK (sp0 ++
              (⟨.right, c2, yk, yv, node cl2 l1 k1 v1 r1⟩ : Ctx α) :: path)
              (0 + 1) := by
            rw [hyc] at hctx3; exact hctx3
          obtain ⟨u, hu, hwf, hent⟩ := remFix_spec (Or.inl ⟨cy, hyr⟩) hctx4
          refine ⟨true, u, ?_, hwf, Or.inr ⟨rfl,
            (ectx path).1 ++ entries (node cl2 l1 k1 v1 r1), zv2,
            (yk, yv) :: (entries (plug yr sp2) ++ (ectx path).2), ?_, ?_⟩⟩
          · unfold removeT
            rw [hseek]
            simp [hD0, hyc, hu]
          · exact hentt
          · rw [hent]
            exact hentu yr

end Tree

end CLIP

namespace CLIP.Tree
variable {α : Type}

theorem alook_append_none {l1 l2 : List (Int × α)} {k : Int}
    (h : alook l1 k = none) : alook (l1 ++ l2) k = alook l2 k := by
  induction l1 with
  | nil => rfl
  | cons q l ih =>
    obtain ⟨k0, v⟩ := q
    by_cases hk : k = k0
    · simp [alook, hk] at h
    · simp only [alook, List.cons_append, if_neg hk] at h ⊢
      exact ih h

theorem alook_append_some {l1 l2 : List (Int × α)} {k : Int} {v : α}
    (h : alook l1 k = some v) : alook (l1 ++ l2) k = some v := by
  induction l1 with
  | nil => simp [alook] at h
  | cons q l ih =>
    obtain ⟨k0, w⟩ := q
    by_cases hk : k = k0
    · simp only [alook, List.cons_append, if_pos hk] at h ⊢
      exact h
    · simp only [alook, List.cons_append, if_neg hk] at h ⊢
      exact ih h

theorem alook_eq_none {l : List (Int × α)} {k : Int}
    (h : ∀ q ∈ l, q.1 ≠ k) : alook l k = none := by
  induction l with
  | nil => rfl
  | cons q l ih =>
    obtain ⟨k0, v⟩ := q
    have hk : k ≠ k0 := fun hh => (h (k0, v) (by simp)) hh.symm
    simp only [alook, if_neg hk]
    exact ih (fun q hq => h q (by simp [hq]))

theorem alook_cons_self (k : Int) (v : α) (l : List (Int × α)) :
    alook ((k, v) :: l) k = some v := by
  simp [alook]

theorem alook_isSome_iff {l : List (Int × α)} {k : Int} :
    (alook l k).isSome = true ↔ k ∈ l.map Prod.fst := by
  induction l with
  | nil => simp [alook]
  | cons q l ih =>
    obtain ⟨k0, v⟩ := q
    by_cases hk : k = k0
    · simp [alook, hk]
    · simp [alook, if_neg hk, ih, hk]

theorem findNode_eq_alook {t : Tree α}
    (hs : (entries t).Pairwise (fun a b => a.1 < b.1)) (k : Int) :
    findNode t k = alook (entries t) k := by
  induction t with
  | nil => rfl
  | node c l k0 v r ihl ihr =>
    have hsp := (List.pairwise_append).mp (by simpa [entries] using hs)
    obtain ⟨hsl, hsr0, hcross⟩ := hsp
    have hsr : (entries r).Pairwise (fun a b => a.1 < b.1) :=
      (List.pairwise_cons.mp hsr0).2
    have hltr : ∀ q ∈ entries r, k0 < q.1 := fun q hq =>
      (List.pairwise_cons.mp hsr0).1 q hq
    have hltl : ∀ q ∈ entries l, q.1 < k0 := fun q hq =>
      hcross q hq (k0, v) (by simp)
    rcases lt_trichotomy k k0 with hlt | heq | hgt
    · have hk : k ≠ k0 := ne_of_lt hlt
      rw [show findNode (node c l k0 v r) k = findNode l k by
        simp [findNode, hk, hlt]]
      rw [ihl hsl]
      cases hal : alook (entries l) k with
      | some w => rw [show entries (node c l k0 v r)
            = entries l ++ (k0, v) :: entries r from rfl,
          alook_append_some hal]
      | none =>
        rw [show entries (node c l k0 v r)
            = entries l ++ (k0, v) :: entries r from rfl,
          alook_append_none hal]
        have : alook ((k0, v) :: entries r) k = none := by
          refine alook_eq_none ?_
          intro q hq
          rcases List.mem_cons.mp hq with hq | hq
          · rw [hq]; exact fun hh => hk hh.symm
          · exact fun hh => absurd (hh ▸ hltr q hq) (by omega)
        rw [this]
    · subst heq
      rw [show findNode (node c l k v r) k = some v by simp [findNode]]
      rw [show entries (node c l k v r)
          = entries l ++ (k, v) :: entries r from rfl]
      rw [alook_append_none (alook_eq_none (fun q hq hh =>
        absurd (hh ▸ hltl q hq) (by omega)))]
      exact (alook_cons_self k v (entries r)).symm
    · have hk : k ≠ k0 := ne_of_gt hgt
      rw [show findNode (node c l k0 v r) k = findNode r k by
        simp [findNode, hk, not_lt_of_gt hgt]]
      rw [ihr hsr]
      rw [show entries (node c l k0 v r)
          = entries l ++ (k0, v) :: entries r from rfl]
      rw [alook_append_none (alook_eq_none (fun q hq hh =>
        absurd (hh ▸ hltl q hq) (by omega)))]
      simp [alook, hk]

theorem seek_focus (k : Int) : ∀ {t : Tree α} (p : List (Ctx α)),
    ((seek t k p).1 = nil → findNode t k = none) ∧
    (∀ c l2 k0 v r, (seek t k p).1 = node c l2 k0 v r →
      findNode t k = some v ∧ k0 = k) := by
  intro t
  induction t with
  | nil =>
    intro p
    exact ⟨fun _ => rfl, fun c l2 k0 v r h => by simp [seek] at h⟩
  | node c0 l k0 v0 r ihl ihr =>
    intro p
    by_cases hk : k = k0
    · subst hk
      constructor
      · intro h; simp [seek] at h
      · intro c l2 k1 v r2 h
        simp only [seek, if_pos rfl] at h
        injection h with h1 h2 h3 h4 h5
        subst h3; subst h4
        exact ⟨by simp [findNode], rfl⟩
    · by_cases hlt : k < k0
      · constructor
        · intro h
          rw [show findNode (node c0 l k0 v0 r) k = findNode l k by
            simp [findNode, hk, hlt]]
          exact (ihl (⟨.left, c0, k0, v0, r⟩ :: p)).1
            (by simpa [seek, hk, hlt] using h)
        · intro c l2 k1 v r2 h
          rw [show findNode (node c0 l k0 v0 r) k = findNode l k by
            simp [findNode, hk, hlt]]
          exact (ihl (⟨.left, c0, k0, v0, r⟩ :: p)).2 c l2 k1 v r2
            (by simpa [seek, hk, hlt] using h)
      · constructor
        · intro h
          rw [show findNode (node c0 l k0 v0 r) k = findNode r k by
            simp [findNode, hk, hlt]]
          exact (ihr (⟨.right, c0, k0, v0, l⟩ :: p)).1
            (by simpa [seek, hk, hlt] using h)
        · intro c l2 k1 v r2 h
          rw [show findNode (node c0 l k0 v0 r) k = findNode r k by
            simp [findNode, hk, hlt]]
          exact (ihr (⟨.right, c0, k0, v0, l⟩ :: p)).2 c l2 k1 v r2
            (by simpa [seek, hk, hlt] using h)

theorem pairwise_mid {R : Int × α → Int × α → Prop} {l1 l2 : List (Int × α)}
    {x : Int × α} (h : (l1 ++ l2).Pairwise R)
    (h1 : ∀ a ∈ l1, R a x) (h2 : ∀ b ∈ l2, R x b) :
    (l1 ++ x :: l2).Pairwise R := by
  obtain ⟨ha, hb, hab⟩ := List.pairwise_append.mp h
  refine List.pairwise_append.mpr ⟨ha, ?_, ?_⟩
  · exact List.pairwise_cons.mpr ⟨h2, hb⟩
  · intro a hha b hhb
    rcases List.mem_cons.mp hhb with hb2 | hb2
    · rw [hb2]; exact h1 a hha
    · exact hab a hha b hb2

theorem seek_bounds (k : Int) : ∀ {t : Tree α} (p : List (Ctx α)),
    (entries t).Pairwise (fun a b => a.1 < b.1) →
    (∀ q ∈ (ectx p).1, q.1 < k) → (∀ q ∈ (ectx p).2, k < q.1) →
    (entries (seek t k p).1).Pairwise (fun a b => a.1 < b.1) ∧
    (∀ q ∈ (ectx (seek t k p).2).1, q.1 < k) ∧
    (∀ q ∈ (ectx (seek t k p).2).2, k < q.1) := by
  intro t
  induction t with
  | nil => intro p hs h1 h2; exact ⟨by simp [seek, entries], h1, h2⟩
  | node c0 l k0 v0 r ihl ihr =>
    intro p hs h1 h2
    have hsp := (List.pairwise_append).mp
      (by simpa [entries] using hs)
    obtain ⟨hsl, hsr0, hcross⟩ := hsp
    have hsr : (entries r).Pairwise (fun a b => a.1 < b.1) :=
      (List.pairwise_cons.mp hsr0).2
    have hltr : ∀ q ∈ entries r, k0 < q.1 := fun q hq =>
      (List.pairwise_cons.mp hsr0).1 q hq
    have hltl : ∀ q ∈ entries l, q.1 < k0 := fun q hq =>
      hcross q hq (k0, v0) (by simp)
    by_cases hk : k = k0
    · subst hk
      refine ⟨?_, ?_, ?_⟩ <;> simp only [seek, if_pos rfl]
      · exact hs
      · exact h1
      · exact h2
    · by_cases hlt : k < k0
      · have h2b : ∀ q ∈ (ectx ((⟨.left, c0, k0, v0, r⟩ : Ctx α) :: p)).2,
            k < q.1 := by
          intro q hq
          simp only [ectx] at hq
          rcases List.mem_cons.mp hq with hq | hq
          · rw [hq]; exact hlt
          · rcases List.mem_append.mp hq with hq | hq
            · exact lt_trans hlt (hltr q hq)
            · exact h2 q hq
        have := ihl (⟨.left, c0, k0, v0, r⟩ :: p) hsl
          (by simpa [ectx] using h1) h2b
        simpa [seek, hk, hlt] using this
      · have h1b : ∀ q ∈ (ectx ((⟨.right, c0, k0, v0, l⟩ : Ctx α) :: p)).1,
            q.1 < k := by
          intro q hq
          simp only [ectx] at hq
          rcases List.mem_append.mp hq with hq | hq
          · rcases List.mem_append.mp hq with hq | hq
            · exact h1 q hq
            · exact lt_trans (hltl q hq) (by omega)
          · simp at hq
            rw [hq]
            omega
        have := ihr (⟨.right, c0, k0, v0, l⟩ :: p) hsr h1b
          (by simpa [ectx] using h2)
        simpa [seek, hk, hlt] using this

theorem keys_pairwise_iff (t : Tree α) :
    (keys t).Pairwise (· < ·) ↔
      (entries t).Pairwise (fun a b => a.1 < b.1) := by
  rw [keys_eq]
  exact List.pairwise_map

end CLIP.Tree

namespace CLIP.Tree
variable {α : Type}

theorem alook_middle {l1 l2 : List (Int × α)} {k k2 : Int} {v : α}
    (hne : k2 ≠ k) :
    alook (l1 ++ (k, v) :: l2) k2 = alook (l1 ++ l2) k2 := by
  cases hal : alook l1 k2 with
  | some w => rw [alook_append_some hal, alook_append_some hal]
  | none =>
    rw [alook_append_none hal, alook_append_none hal]
    simp [alook, if_neg hne]

theorem shape_plug_congr {t u : Tree α} (h : shape t = shape u) :
    ∀ p : List (Ctx α), shape (plug t p) = shape (plug u p)
  | [] => h
  | e :: p => by
    refine shape_plug_congr ?_ p
    obtain ⟨d, c, k0, v0, sib⟩ := e
    cases d <;> simp [plugOne, shape, h]

theorem isRB_value_swap {c : Color} {l r : Tree α} {k : Int} {w v : α}
    {c2 : Color} {n : Nat} (h : IsRB (node c l k w r) c2 n) :
    IsRB (node c l k v r) c2 n := by
  obtain ⟨cl, cr, m0, hl, hr, hn, hc, hredc⟩ := isRB_node_inv h
  subst hn; subst hc
  cases c2 with
  | red =>
    obtain ⟨hcl, hcr⟩ := hredc rfl
    subst hcl; subst hcr
    exact .red hl hr
  | black => exact .black hl hr

end CLIP.Tree

namespace CLIP
open Tree

/-- Master specification of `map_insert` on a map satisfying the full
invariant: the call succeeds, preserves the invariant, afterwards the key
maps to the supplied value and every other key is unaffected; the return
flag distinguishes overwrite of an existing entry (shape and size
preserved) from fresh insertion (size incremented). -/
theorem mapInsert_master {α : Type} {m : RBMap α} (hm : MInv m) (k : Int)
    (v : α) :
    ∃ b m2, mapInsert m k v = some (b, m2) ∧ MInv m2 ∧
      mapGet m2 k = some v ∧
      (∀ k2, k2 ≠ k → mapGet m2 k2 = mapGet m k2) ∧
      ((b = false ∧ (∃ w, mapGet m k = some w) ∧
          shape m2.root = shape m.root ∧ m2.size = m.size) ∨
       (b = true ∧ mapGet m k = none ∧ m2.size = m.size + 1)) := by
  obtain ⟨⟨n, ht⟩, hsk, hsz⟩ := hm
  have hs : (entries m.root).Pairwise (fun a b => a.1 < b.1) :=
    (keys_pairwise_iff m.root).mp hsk
  have hsB := seek_bounds k ([] : List (Ctx α)) hs
    (by simp [ectx]) (by simp [ectx])
  have hsS := seek_spec k ht (show CtxOK ([] : List (Ctx α)) n from trivial)
    (fun hh => absurd ((isRB_isRed ht).mp hh) (by simp))
    (fun _ => rfl) trivial
  rcases hseek : seek m.root k [] with ⟨focus, path⟩
  rw [hseek] at hsB hsS
  obtain ⟨hplug, hguide, hkey, c2, n2, hfoc, hctx, hfred, hfnil⟩ := hsS
  obtain ⟨hsfoc, hb1, hb2⟩ := hsB
  simp only [plug] at hplug
  cases focus with
  | nil =>
    have hn2 : n2 = 0 := (isRB_nil_inv hfoc).2
    subst hn2
    have hz : IsRB (node .red nil k v nil) .red 0 := .red .nil .nil
    obtain ⟨u, hins, ⟨mm, hmm⟩, hentu⟩ := insFix_spec hz hctx
    have hentu2 : entries u = (ectx path).1 ++ (k, v) :: (ectx path).2 := by
      rw [hentu, entries_plug]
      simp [entries]
    have hentm : entries m.root = (ectx path).1 ++ (ectx path).2 := by
      rw [← hplug, entries_plug]
      simp [entries]
    have hnelt : ∀ q ∈ (ectx path).1, q.1 ≠ k :=
      fun q hq hh => absurd (hh ▸ hb1 q hq) (by omega)
    have hsu : (entries u).Pairwise (fun a b => a.1 < b.1) := by
      rw [hentu2]
      exact pairwise_mid (hentm ▸ hs) (fun a ha => hb1 a ha)
        (fun b hb => hb2 b hb)
    have hgetu : findNode u k = some v := by
      rw [findNode_eq_alook hsu, hentu2,
        alook_append_none (alook_eq_none hnelt)]
      exact alook_cons_self k v (ectx path).2
    refine ⟨true, ⟨u, m.size + 1⟩, ?_, ⟨⟨mm, hmm⟩, ?_, ?_⟩, hgetu, ?_,
      Or.inr ⟨rfl, ?_, rfl⟩⟩
    · unfold mapInsert
      rw [hseek]
      simp [hins]
    · exact (keys_pairwise_iff u).mpr hsu
    · show m.size + 1 = ((count u : Nat) : Int)
      rw [count_eq_entries_length, hentu2]
      rw [count_eq_entries_length, hentm] at hsz
      simp only [List.length_append, List.length_cons] at hsz ⊢
      push_cast
      push_cast at hsz
      omega
    · intro k2 hk2
      show findNode u k2 = findNode m.root k2
      rw [findNode_eq_alook hsu, findNode_eq_alook hs, hentu2, hentm,
        alook_middle hk2]
    · show findNode m.root k = none
      rw [findNode_eq_alook hs, hentm]
      refine alook_eq_none ?_
      intro q hq
      rcases List.mem_append.mp hq with hq | hq
      · exact hnelt q hq
      · exact fun hh => absurd (hh ▸ hb2 q hq) (by omega)
  | node cf lf kf wf rf =>
    have hkf : k = kf := (hkey cf lf kf wf rf rfl).symm
    subst hkf
    have hfoc2 : IsRB (node cf lf k v rf) c2 n2 := isRB_value_swap hfoc
    obtain ⟨mm, hmm⟩ := plug_RB hctx hfoc2
      (fun f rs hp hfc => by
        cases hc2 : c2 with
        | black => rfl
        | red =>
          obtain ⟨f2, rs2, hfr, hfb⟩ :=
            hfred ((isRB_isRed hfoc).mpr hc2)
          rw [hp] at hfr
          injection hfr with h1 h2
          rw [← h1] at hfb
          rw [hfb] at hfc
          cases hfc)
      (fun hp => hfnil hp)
    have hentm : entries m.root =
        ((ectx path).1 ++ entries lf) ++ (k, wf) ::
          (entries rf ++ (ectx path).2) := by
      rw [← hplug, entries_plug]
      simp [entries, List.append_assoc]
    have hentu : entries (plug (node cf lf k v rf) path) =
        ((ectx path).1 ++ entries lf) ++ (k, v) ::
          (entries rf ++ (ectx path).2) := by
      rw [entries_plug]
      simp [entries, List.append_assoc]
    have hkeysu : keys (plug (node cf lf k v rf) path) = keys m.root := by
      rw [keys_eq, keys_eq, hentm, hentu]
      simp
    have hsu : (entries (plug (node cf lf k v rf) path)).Pairwise
        (fun a b => a.1 < b.1) := by
      have := (keys_pairwise_iff _).mp (hkeysu ▸ hsk)
      exact this
    have hprelt : ∀ q ∈ (ectx path).1 ++ entries lf, q.1 < k := by
      have := hentm ▸ hs
      obtain ⟨h1, h2, h3⟩ := List.pairwise_append.mp this
      exact fun q hq => h3 q hq (k, wf) (by simp)
    have hsuflt : ∀ q ∈ entries rf ++ (ectx path).2, k < q.1 := by
      have := hentm ▸ hs
      obtain ⟨h1, h2, h3⟩ := List.pairwise_append.mp this
      exact fun q hq => (List.pairwise_cons.mp h2).1 q hq
    have hgetu : findNode (plug (node cf lf k v rf) path) k = some v := by
      rw [findNode_eq_alook hsu, hentu,
        alook_append_none (alook_eq_none (fun q hq hh =>
          absurd (hh ▸ hprelt q hq) (by omega)))]
      exact alook_cons_self _ _ _
    refine ⟨false, ⟨plug (node cf lf k v rf) path, m.size⟩, ?_,
      ⟨⟨mm, hmm⟩, ?_, ?_⟩, hgetu, ?_, Or.inl ⟨rfl, ⟨wf, ?_⟩, ?_, rfl⟩⟩
    · unfold mapInsert
      rw [hseek]
    · exact hkeysu ▸ hsk
    · show m.size = ((count (plug (node cf lf k v rf) path) : Nat) : Int)
      rw [count_eq_entries_length, hentu]
      rw [count_eq_entries_length, hentm] at hsz
      simp only [List.length_append, List.length_cons] at hsz ⊢
      exact hsz
    · intro k2 hk2
      show findNode _ k2 = findNode m.root k2
      rw [findNode_eq_alook hsu, findNode_eq_alook hs, hentu, hentm,
        alook_middle hk2, alook_middle hk2]
    · show findNode m.root k = some wf
      rw [findNode_eq_alook hs, hentm,
        alook_append_none (alook_eq_none (fun q hq hh =>
          absurd (hh ▸ hprelt q hq) (by omega)))]
      exact alook_cons_self _ _ _
    · show shape (plug (node cf lf k v rf) path) = shape m.root
      rw [← hplug]
      exact shape_plug_congr (show shape (node cf lf k v rf)
        = shape (node cf lf k wf rf) from rfl) path

end CLIP

namespace CLIP
open Tree

/-- Master specification of `map_remove` on a map satisfying the full
invariant: the call succeeds, preserves the invariant, afterwards the key
is absent and every other key is unaffected; the return flag is false (map
untouched) exactly when the key was absent, and otherwise the size drops
by one. -/
theorem mapRemove_master {α : Type} {m : RBMap α} (hm : MInv m) (k : Int) :
    ∃ b m2, mapRemove m k = some (b, m2) ∧ MInv m2 ∧
      mapGet m2 k = none ∧
      (∀ k2, k2 ≠ k → mapGet m2 k2 = mapGet m k2) ∧
      ((b = false ∧ m2 = m ∧ mapGet m k = none) ∨
       (b = true ∧ (∃ w, mapGet m k = some w) ∧ m2.size = m.size - 1)) := by
  obtain ⟨⟨n, ht⟩, hsk, hsz⟩ := hm
  have hs : (entries m.root).Pairwise (fun a b => a.1 < b.1) :=
    (keys_pairwise_iff m.root).mp hsk
  obtain ⟨b, u, hrem, ⟨mm, hmm⟩, hcase⟩ := removeT_spec ht k
  rcases hcase with ⟨hb, hu, hfocnil⟩ | ⟨hb, pre, vz, suf, hentm, hentu⟩
  · subst hb; subst hu
    have hget : findNode m.root k = none := (seek_focus k []).1 hfocnil
    refine ⟨false, m, ?_, ⟨⟨n, ht⟩, hsk, hsz⟩, hget, fun k2 _ => rfl,
      Or.inl ⟨rfl, rfl, hget⟩⟩
    unfold mapRemove
    rw [hrem]
  · subst hb
    have hsold := hentm ▸ hs
    obtain ⟨hpre, hmid, hcross⟩ := List.pairwise_append.mp hsold
    have hprelt : ∀ q ∈ pre, q.1 < k := fun q hq =>
      hcross q hq (k, vz) (by simp)
    have hsuflt : ∀ q ∈ suf, k < q.1 := fun q hq =>
      (List.pairwise_cons.mp hmid).1 q hq
    have hsu : (entries u).Pairwise (fun a b => a.1 < b.1) := by
      rw [hentu]
      refine List.pairwise_append.mpr
        ⟨hpre, (List.pairwise_cons.mp hmid).2, ?_⟩
      intro a ha bq hbq
      exact hcross a ha bq (List.mem_cons_of_mem _ hbq)
    have hgetm : findNode m.root k = some vz := by
      rw [findNode_eq_alook hs, hentm,
        alook_append_none (alook_eq_none (fun q hq hh =>
          absurd (hh ▸ hprelt q hq) (by omega)))]
      exact alook_cons_self _ _ _
    have hgetu : findNode u k = none := by
      rw [findNode_eq_alook hsu, hentu]
      refine alook_eq_none ?_
      intro q hq
      rcases List.mem_append.mp hq with hq | hq
      · exact fun hh => absurd (hh ▸ hprelt q hq) (by omega)
      · exact fun hh => absurd (hh ▸ hsuflt q hq) (by omega)
    refine ⟨true, ⟨u, m.size - 1⟩, ?_,
      ⟨⟨mm, hmm⟩, (keys_pairwise_iff u).mpr hsu, ?_⟩,
      hgetu, ?_, Or.inr ⟨rfl, ⟨vz, hgetm⟩, rfl⟩⟩
    · unfold mapRemove
      rw [hrem]
    · show m.size - 1 = ((count u : Nat) : Int)
      rw [count_eq_entries_length, hentu]
      rw [count_eq_entries_length, hentm] at hsz
      simp only [List.length_append, List.length_cons] at hsz ⊢
      push_cast
      push_cast at hsz
      omega
    · intro k2 hk2
      show findNode u k2 = findNode m.root k2
      rw [findNode_eq_alook hsu, findNode_eq_alook hs, hentu, hentm,
        alook_middle hk2]

end CLIP

namespace CLIP.Tree
variable {α : Type}

theorem seek_plug (k : Int) : ∀ (t : Tree α) (p : List (Ctx α)),
    plug (seek t k p).1 (seek t k p).2 = plug t p := by
  intro t
  induction t with
  | nil => intro p; rfl
  | node c l k0 v r ihl ihr =>
    intro p
    by_cases hk : k = k0
    · simp [seek, hk]
    · by_cases hlt : k < k0
      · have := ihl (⟨.left, c, k0, v, r⟩ :: p)
        simp only [seek, if_neg hk, if_pos hlt]
        rw [this]
        rfl
      · have := ihr (⟨.right, c, k0, v, l⟩ :: p)
        simp only [seek, if_neg hk, if_neg hlt]
        rw [this]
        rfl

theorem shape_unit_id : ∀ t : Tree Unit, shape t = t := by
  intro t
  induction t with
  | nil => rfl
  | node c l k v r ihl ihr => simp [shape, ihl, ihr]

theorem isRB_black_not_red {t : Tree α} {n : Nat} (h : IsRB t .black n) :
    isRed t = false := by
  cases hb : isRed t
  · rfl
  · cases (isRB_isRed h).mp hb

theorem isRB_checks {t : Tree α} {c : Color} {n : Nat} (h : IsRB t c n) :
    noRedRed t = true ∧ bhOf t = some n := by
  induction h with
  | nil => exact ⟨rfl, rfl⟩
  | red hl hr ihl ihr =>
    refine ⟨?_, ?_⟩
    · simp [noRedRed, ihl.1, ihr.1, isRB_black_not_red hl,
        isRB_black_not_red hr]
    · simp [bhOf, ihl.2, ihr.2, cInc]
  | black hl hr ihl ihr =>
    refine ⟨?_, ?_⟩
    · simp [noRedRed, ihl.1, ihr.1]
    · simp [bhOf, ihl.2, ihr.2, cInc]

theorem wf_checks {t : Tree α} (h : WFt t) :
    rootBlackOrNil t = true ∧ noRedRed t = true ∧ (bhOf t).isSome = true := by
  obtain ⟨n, ht⟩ := h
  obtain ⟨h1, h2⟩ := isRB_checks ht
  refine ⟨?_, h1, by simp [h2]⟩
  cases ht <;> simp [rootBlackOrNil]

end CLIP.Tree

namespace CLIP
open Tree

theorem setInsert_eq (s : RBSet) (k : Int) :
    setInsert s k = (mapInsert (⟨s.root, s.size⟩ : RBMap Unit) k ()).map
      (fun q => (q.1, (⟨q.2.root, q.2.size⟩ : RBSet))) := by
  obtain ⟨sr, ss⟩ := s
  unfold setInsert mapInsert
  rcases hseek : seek sr k [] with ⟨focus, path⟩
  simp only [hseek]
  cases focus with
  | node c l2 k0 w r2 =>
    have h2 := seek_plug k sr []
    rw [hseek] at h2
    simp only [plug] at h2
    cases w
    simp only [Option.map_some]
    rw [h2]
    rfl
  | nil =>
    cases hin : insFix (node .red nil k () nil) path <;>
      simp [hin]

theorem setRemove_eq (s : RBSet) (k : Int) :
    setRemove s k = (mapRemove (⟨s.root, s.size⟩ : RBMap Unit) k).map
      (fun q => (q.1, (⟨q.2.root, q.2.size⟩ : RBSet))) := by
  obtain ⟨sr, ss⟩ := s
  unfold setRemove mapRemove
  cases hrem : removeT sr k with
  | none => rfl
  | some bp =>
    obtain ⟨b, u⟩ := bp
    cases b <;> simp

theorem sinv_minv (s : RBSet) :
    SInv s ↔ MInv (⟨s.root, s.size⟩ : RBMap Unit) := Iff.rfl

/-- Master specification of `set_insert` on a set satisfying the full
invariant. -/
theorem setInsert_master {s : RBSet} (hs : SInv s) (k : Int) :
    ∃ b s2, setInsert s k = some (b, s2) ∧ SInv s2 ∧
      setContains s2 k = true ∧
      (∀ k2, k2 ≠ k → setContains s2 k2 = setContains s k2) ∧
      ((b = false ∧ s2 = s ∧ setContains s k = true ∧ s2.size = s.size) ∨
       (b = true ∧ setContains s k = false ∧ s2.size = s.size + 1)) := by
  obtain ⟨b, m2, heq, hm2, hget, hpres, hcase⟩ :=
    mapInsert_master ((sinv_minv s).mp hs) k ()
  refine ⟨b, ⟨m2.root, m2.size⟩, ?_, hm2, ?_, ?_, ?_⟩
  · rw [setInsert_eq, heq]
    rfl
  · show (findNode m2.root k).isSome = true
    rw [show findNode m2.root k = mapGet m2 k from rfl, hget]
    rfl
  · intro k2 hk2
    show (findNode m2.root k2).isSome = (findNode s.root k2).isSome
    rw [show findNode m2.root k2 = mapGet m2 k2 from rfl, hpres k2 hk2]
    rfl
  · rcases hcase with ⟨hb, ⟨w, hw⟩, hshape, hsize⟩ | ⟨hb, hnone, hsize⟩
    · refine Or.inl ⟨hb, ?_, ?_, hsize⟩
      · have hroot : m2.root = s.root := by
          rw [← shape_unit_id m2.root, hshape, shape_unit_id]
        obtain ⟨sr, ss⟩ := s
        simp only at hroot hsize
        rw [hroot, hsize]
      · show (findNode s.root k).isSome = true
        rw [show findNode s.root k = mapGet ⟨s.root, s.size⟩ k from rfl, hw]
        rfl
    · refine Or.inr ⟨hb, ?_, hsize⟩
      show (findNode s.root k).isSome = false
      rw [show findNode s.root k = mapGet ⟨s.root, s.size⟩ k from rfl, hnone]
      rfl

/-- Master specification of `set_remove` on a set satisfying the full
invariant. -/
theorem setRemove_master {s : RBSet} (hs : SInv s) (k : Int) :
    ∃ b s2, setRemove s k = some (b, s2) ∧ SInv s2 ∧
      setContains s2 k = false ∧
      (∀ k2, k2 ≠ k → setContains s2 k2 = setContains s k2) ∧
      ((b = false ∧ s2 = s ∧ setContains s k = false) ∨
       (b = true ∧ setContains s k = true ∧ s2.size = s.size - 1)) := by
  obtain ⟨b, m2, heq, hm2, hget, hpres, hcase⟩ :=
    mapRemove_master ((sinv_minv s).mp hs) k
  refine ⟨b, ⟨m2.root, m2.size⟩, ?_, hm2, ?_, ?_, ?_⟩
  · rw [setRemove_eq, heq]
    rfl
  · show (findNode m2.root k).isSome = false
    rw [show findNode m2.root k = mapGet m2 k from rfl, hget]
    rfl
  · intro k2 hk2
    show (findNode m2.root k2).isSome = (findNode s.root k2).isSome
    rw [show findNode m2.root k2 = mapGet m2 k2 from rfl, hpres k2 hk2]
    rfl
  · rcases hcase with ⟨hb, hm2m, hnone⟩ | ⟨hb, ⟨w, hw⟩, hsize⟩
    · refine Or.inl ⟨hb, ?_, ?_⟩
      · obtain ⟨sr, ss⟩ := s
        rw [hm2m]
      · show (findNode s.root k).isSome = false
        rw [show findNode s.root k = mapGet ⟨s.root, s.size⟩ k from rfl,
          hnone]
        rfl
    · refine Or.inr ⟨hb, ?_, hsize⟩
      show (findNode s.root k).isSome = true
      rw [show findNode s.root k = mapGet ⟨s.root, s.size⟩ k from rfl, hw]
      rfl

theorem minv_init {α : Type} : MInv (initMap (α := α)) := by
  refine ⟨⟨0, .nil⟩, ?_, ?_⟩
  · simp [Tree.keys, Tree.entries, initMap]
  · simp [Tree.count, initMap]

theorem sinv_init : SInv initSet := by
  refine ⟨⟨0, .nil⟩, ?_, ?_⟩
  · simp [Tree.keys, Tree.entries, initSet]
  · simp [Tree.count, initSet]

theorem runMapFrom_MInv (ops : List MapOp) : ∀ {m m2 : RBMap Int},
    MInv m → runMapFrom m ops = some m2 → MInv m2 := by
  induction ops with
  | nil =>
    intro m m2 hm h
    injection h with h
    exact h ▸ hm
  | cons op ops ih =>
    intro m m2 hm h
    cases op with
    | ins k v =>
      obtain ⟨b, m1, heq, hm1, _⟩ := mapInsert_master hm k v
      simp only [runMapFrom, heq, Option.map_some] at h
      exact ih hm1 h
    | rem k =>
      obtain ⟨b, m1, heq, hm1, _⟩ := mapRemove_master hm k
      simp only [runMapFrom, heq, Option.map_some] at h
      exact ih hm1 h

theorem runSetFrom_SInv (ops : List SetOp) : ∀ {s s2 : RBSet},
    SInv s → runSetFrom s ops = some s2 → SInv s2 := by
  induction ops with
  | nil =>
    intro s s2 hs h
    injection h with h
    exact h ▸ hs
  | cons op ops ih =>
    intro s s2 hs h
    cases op with
    | ins k =>
      obtain ⟨b, s1, heq, hs1, _⟩ := setInsert_master hs k
      simp only [runSetFrom, heq, Option.map_some] at h
      exact ih hs1 h
    | rem k =>
      obtain ⟨b, s1, heq, hs1, _⟩ := setRemove_master hs k
      simp only [runSetFrom, heq, Option.map_some] at h
      exact ih hs1 h

end CLIP

namespace CLIP
open Tree

theorem insertAll_master : ∀ (l : List (Int × Int)) {m : RBMap Int},
    MInv m → (l.map Prod.fst).Nodup →
    ∃ m2, insertAll m l = some m2 ∧ MInv m2 ∧
      (∀ kv ∈ l, mapGet m2 kv.1 = some kv.2) ∧
      (∀ k, k ∉ l.map Prod.fst → mapGet m2 k = mapGet m k) := by
  intro l
  induction l with
  | nil =>
    intro m hm _
    exact ⟨m, rfl, hm, by simp, fun _ _ => rfl⟩
  | cons kv rest ih =>
    intro m hm hnd
    obtain ⟨k, v⟩ := kv
    obtain ⟨b, m1, heq, hm1, hget, hpres, _⟩ := mapInsert_master hm k v
    have hnd2 : (rest.map Prod.fst).Nodup :=
      (List.nodup_cons.mp (by simpa using hnd)).2
    have hknotin : k ∉ rest.map Prod.fst :=
      (List.nodup_cons.mp (by simpa using hnd)).1
    obtain ⟨m2, heq2, hm2, hget2, hpres2⟩ := ih hm1 hnd2
    refine ⟨m2, ?_, hm2, ?_, ?_⟩
    · simp only [insertAll, heq]
      exact heq2
    · intro kv2 hkv2
      rcases List.mem_cons.mp hkv2 with h | h
      · rw [h]
        show mapGet m2 k = some v
        rw [hpres2 k hknotin, hget]
      · exact hget2 kv2 h
    · intro k2 hk2
      have hk2r : k2 ∉ rest.map Prod.fst := fun hh => hk2 (by simp [hh])
      have hk2k : k2 ≠ k := fun hh => hk2 (by simp [hh])
      rw [hpres2 k2 hk2r, hpres k2 hk2k]

theorem insertAllS_master : ∀ (l : List Int) {s : RBSet},
    SInv s → l.Nodup →
    ∃ s2, insertAllS s l = some s2 ∧ SInv s2 ∧
      (∀ k ∈ l, setContains s2 k = true) ∧
      (∀ k, k ∉ l → setContains s2 k = setContains s k) := by
  intro l
  induction l with
  | nil =>
    intro s hs _
    exact ⟨s, rfl, hs, by simp, fun _ _ => rfl⟩
  | cons k rest ih =>
    intro s hs hnd
    obtain ⟨b, s1, heq, hs1, hget, hpres, _⟩ := setInsert_master hs k
    have hnd2 : rest.Nodup := (List.nodup_cons.mp hnd).2
    have hknotin : k ∉ rest := (List.nodup_cons.mp hnd).1
    obtain ⟨s2, heq2, hs2, hget2, hpres2⟩ := ih hs1 hnd2
    refine ⟨s2, ?_, hs2, ?_, ?_⟩
    · simp only [insertAllS, heq]
      exact heq2
    · intro k2 hk2
      rcases List.mem_cons.mp hk2 with h | h
      · rw [h, hpres2 k hknotin, hget]
      · exact hget2 k2 h
    · intro k2 hk2
      have hk2r : k2 ∉ rest := fun hh => hk2 (by simp [hh])
      have hk2k : k2 ≠ k := fun hh => hk2 (by simp [hh])
      rw [hpres2 k2 hk2r, hpres k2 hk2k]

end CLIP

namespace CLIP.Tree

theorem clearDtorList_perm_keys : ∀ t : Tree Unit,
    (clearDtorList t).Perm (keys t) := by
  intro t
  induction t with
  | nil => exact List.Perm.refl _
  | node c l k v r ihl ihr =>
    have h1 : (clearDtorList (node c l k () r)).Perm
        (keys l ++ (keys r ++ [k])) := by
      show (clearDtorList l ++ clearDtorList r ++ [k]).Perm _
      rw [List.append_assoc]
      exact List.Perm.append ihl (List.Perm.append ihr (List.Perm.refl _))
    have h2 : (keys l ++ (keys r ++ [k])).Perm (keys l ++ k :: keys r) :=
      List.Perm.append_left _ (List.perm_append_singleton k (keys r))
    have h3 : keys (node c l k () r) = keys l ++ k :: keys r := by
      rw [keys_eq, keys_eq, keys_eq]
      show (entries l ++ (k, ()) :: entries r).map Prod.fst = _
      simp
    rw [h3]
    exact h1.trans h2

theorem sorted_keys_nodup {t : Tree α} (h : (keys t).Pairwise (· < ·)) :
    (keys t).Nodup :=
  h.imp (fun hab => ne_of_lt hab)

theorem count_eq_zero_iff_nil {t : Tree α} : count t = 0 ↔ t = nil := by
  cases t with
  | nil => simp [count]
  | node c l k v r => simp [count]

end CLIP.Tree

namespace CLIP
open Tree

theorem count_map_ite {l : List Int} {f : Int → Int} {p : Int}
    (hf : ∀ a, f a = p ↔ a = p) : (l.map f).count p = l.count p := by
  induction l with
  | nil => rfl
  | cons a l ih =>
    by_cases ha : a = p
    · have hfa : f a = p := (hf a).mpr ha
      subst ha
      simp [List.count_cons, hfa, ih]
    · have : ¬ f a = p := fun hh => ha ((hf a).mp hh)
      simp [List.count_cons, ha, this, ih]

theorem length_filter_partition (p : Int → Bool) : ∀ l : List Int,
    (l.filter p).length + (l.filter (fun a => !(p a))).length = l.length := by
  intro l
  induction l with
  | nil => rfl
  | cons a l ih =>
    cases hp : p a <;> simp [List.filter_cons, hp, ← ih] <;> omega

theorem contains_iff_mem_keys {s : RBSet} (hs : SInv s) (k : Int) :
    setContains s k = true ↔ k ∈ keys s.root := by
  obtain ⟨hw, hsk, hsz⟩ := hs
  show (findNode s.root k).isSome = true ↔ _
  rw [findNode_eq_alook ((keys_pairwise_iff s.root).mp hsk) k,
    alook_isSome_iff, keys_eq]

end CLIP

namespace CLIP
open Tree

theorem setJoinRec_spec : ∀ (tr : Tree Unit) {d : RBSet},
    SInv d → (keys tr).Nodup →
    ∃ d2 tr2, setJoinRec d tr = some (d2, tr2) ∧ SInv d2 ∧
      (∀ k2, setContains d2 k2 =
        (setContains d k2 || decide (k2 ∈ keys tr))) ∧
      d2.size = d.size +
        (((keys tr).filter (fun k2 => !(setContains d k2))).length : Int) ∧
      clearDtorList tr2 =
        (clearDtorList tr).map
          (fun k2 => if setContains d k2 = true then k2 else 0) := by
  intro tr
  induction tr with
  | nil =>
    intro d hd _
    refine ⟨d, .nil, rfl, hd, ?_, ?_, rfl⟩
    · intro k2
      simp [keys, entries]
    · simp [keys, entries]
  | node c l k v r ihl ihr =>
    intro d hd hnd
    cases v
    have hkeys : keys (node c l k () r) = keys l ++ k :: keys r := by
      rw [keys_eq, keys_eq, keys_eq]
      show (entries l ++ (k, ()) :: entries r).map Prod.fst = _
      simp
    rw [hkeys] at hnd
    obtain ⟨hndl, hndkr, hdisj⟩ := List.nodup_append.mp hnd
    have hndr : (keys r).Nodup := (List.nodup_cons.mp hndkr).2
    have hknr : k ∉ keys r := (List.nodup_cons.mp hndkr).1
    have hknl : k ∉ keys l := fun hh => hdisj hh (by simp)
    have hrnl : ∀ a ∈ keys r, a ∉ keys l :=
      fun a ha hh => hdisj hh (by simp [ha])
    obtain ⟨d1, l1, heql, hd1, hconl, hsizel, hcdll⟩ := ihl hd hndl
    obtain ⟨d2, r2, heqr, hd2, hconr, hsizer, hcdlr⟩ := ihr hd1 hndr
    have hcon1r : ∀ k2 ∈ keys r, setContains d1 k2 = setContains d k2 := by
      intro k2 hk2
      rw [hconl k2]
      simp [hrnl k2 hk2]
    have hcond2k : setContains d2 k = setContains d k := by
      rw [hconr k, hconl k]
      simp [hknl, hknr]
    have hfiltr : (keys r).filter (fun k2 => !(setContains d1 k2))
        = (keys r).filter (fun k2 => !(setContains d k2)) :=
      List.filter_congr (fun k2 hk2 => by rw [hcon1r k2 hk2])
    have hcdlr2 : clearDtorList r2 = (clearDtorList r).map
        (fun k2 => if setContains d k2 = true then k2 else 0) := by
      rw [hcdlr]
      refine List.map_congr_left ?_
      intro k2 hk2
      rw [hcon1r k2 ((clearDtorList_perm_keys r).mem_iff.mp hk2)]
    have hcont3 : ∀ (d3 : RBSet), setContains d3 k = true →
        (∀ k2, k2 ≠ k → setContains d3 k2 = setContains d2 k2) →
        ∀ k2, setContains d3 k2 =
          (setContains d k2 || decide (k2 ∈ keys l ++ k :: keys r)) := by
      intro d3 hget hpres k2
      by_cases hk2 : k2 = k
      · subst hk2
        simp [hget]
      · rw [hpres k2 hk2, hconr k2, hconl k2]
        simp [hk2, Bool.or_assoc]
    obtain ⟨b, d3, heqi, hd3, hgeti, hpresi, hcasei⟩ := setInsert_master hd2 k
    rcases hcasei with ⟨hb, hd3d2, hck, hsz3⟩ | ⟨hb, hck, hsz3⟩
    · -- duplicate: k already present, so present already in d
      subst hb
      have hckd : setContains d k = true := hcond2k ▸ hck
      refine ⟨d3, node c l1 k () r2, ?_, hd3, ?_, ?_, ?_⟩
      · simp only [setJoinRec, heql, heqr, heqi]
      · rw [hkeys]
        exact hcont3 d3 hgeti hpresi
      · rw [hkeys]
        have : ((keys l ++ k :: keys r).filter
            (fun k2 => !(setContains d k2))).length
            = ((keys l).filter (fun k2 => !(setContains d k2))).length
              + ((keys r).filter (fun k2 => !(setContains d k2))).length := by
          simp [List.filter_append, List.filter_cons, hckd]
        rw [this, hd3d2, hsizer, hfiltr, hsizel]
        push_cast
        ring
      · show clearDtorList l1 ++ clearDtorList r2 ++ [k] = _
        rw [hcdll, hcdlr2]
        simp [clearDtorList, List.map_append, hckd]
    · -- transferred: k was absent from d
      subst hb
      have hckd : setContains d k = false := hcond2k ▸ hck
      refine ⟨d3, node c l1 0 () r2, ?_, hd3, ?_, ?_, ?_⟩
      · simp only [setJoinRec, heql, heqr, heqi]
      · rw [hkeys]
        exact hcont3 d3 hgeti hpresi
      · rw [hkeys]
        have : ((keys l ++ k :: keys r).filter
            (fun k2 => !(setContains d k2))).length
            = ((keys l).filter (fun k2 => !(setContains d k2))).length
              + ((keys r).filter (fun k2 => !(setContains d k2))).length
              + 1 := by
          simp [List.filter_append, List.filter_cons, hckd]
          omega
        rw [this, hsz3, hsizer, hfiltr, hsizel]
        push_cast
        ring
      · show clearDtorList l1 ++ clearDtorList r2 ++ [0] = _
        rw [hcdll, hcdlr2]
        simp [clearDtorList, List.map_append, hckd]

end CLIP

namespace CLIP
open Tree

theorem contains_eq_decide_mem {s : RBSet} (hs : SInv s) (k : Int) :
    setContains s k = decide (k ∈ keys s.root) := by
  have h := contains_iff_mem_keys hs k
  cases hc : setContains s k
  · rw [hc] at h
    simp at h
    simp [h]
  · rw [hc] at h
    simp at h
    simp [h]

/-- Master specification of `set_join`: it succeeds, the destination ends
up satisfying the invariant and containing the union, the returned count
is the number of source elements that were not already present, the
destination size grows by exactly that count, the source is left empty,
and the destructor list of the cleared source carries the original
payload exactly for the colliding elements and a zeroed payload for the
transferred ones. -/
theorem setJoin_master {dest src : RBSet} (hd : SInv dest) (hs : SInv src) :
    ∃ r d2 dl, setJoin dest src = some (r, d2, initSet, dl) ∧ SInv d2 ∧
      (∀ k, setContains d2 k = (setContains dest k || setContains src k)) ∧
      r = (((keys src.root).filter
        (fun k => !(setContains dest k))).length : Int) ∧
      d2.size = dest.size + r ∧
      dl = (clearDtorList src.root).map
        (fun k => if setContains dest k = true then k else 0) := by
  have hsmem := contains_eq_decide_mem hs
  obtain ⟨⟨n, hw⟩, hsk, hsz⟩ := hs
  by_cases h0 : src.size = 0
  · have hc0 : count src.root = 0 := by
      rw [h0] at hsz
      omega
    have hnil : src.root = nil := count_eq_zero_iff_nil.mp hc0
    have hsrc : src = initSet := by
      obtain ⟨sroot, ssize⟩ := src
      simp only at hnil h0
      rw [show initSet = ⟨.nil, 0⟩ from rfl, hnil, h0]
    refine ⟨0, dest, [], ?_, hd, ?_, ?_, by ring, ?_⟩
    · unfold setJoin
      rw [if_pos h0, hsrc]
    · intro k
      rw [hsrc]
      show _ = (setContains dest k || (findNode nil k).isSome)
      simp [findNode]
    · rw [hnil]
      simp [keys, entries]
    · rw [hnil]
      simp [clearDtorList]
  · have hnd : (keys src.root).Nodup := sorted_keys_nodup hsk
    obtain ⟨d2, tr2, heq, hd2, hcon, hsize, hcdl⟩ :=
      setJoinRec_spec src.root hd hnd
    refine ⟨d2.size - dest.size, d2, clearDtorList tr2, ?_, hd2, ?_,
      ?_, by ring, hcdl⟩
    · unfold setJoin
      rw [if_neg h0, heq]
      rfl
    · intro k
      rw [hcon k, hsmem k]
    · rw [hsize]
      ring
end CLIP

namespace CLIP
open Tree

/-- C1: for every sequence of insert/remove operations run from `init_map`
resp. `init_set`, the resulting tree satisfies the red-black invariants:
the root is black or the tree is empty, no red node has a red child, and
every path from any node to a null child passes through the same number of
black nodes (every prefix of a sequence is itself a sequence, so this
covers the state after each completed operation). -/
theorem claim_C1 {ops : List MapOp} {m : RBMap Int}
    (hm : runMapOps ops = some m)
    {sops : List SetOp} {s : RBSet} (hs : runSetOps sops = some s) :
    (rootBlackOrNil m.root = true ∧ noRedRed m.root = true ∧
      (bhOf m.root).isSome = true) ∧
    (rootBlackOrNil s.root = true ∧ noRedRed s.root = true ∧
      (bhOf s.root).isSome = true) := by
  have h1 := runMapFrom_MInv ops minv_init hm
  have h2 := runSetFrom_SInv sops sinv_init hs
  exact ⟨wf_checks h1.1, wf_checks h2.1⟩

theorem claim_C1_witness :
    runMapOps [MapOp.ins 50 1, MapOp.ins 25 2, MapOp.rem 50]
      = some ⟨.node .black .nil 25 2 .nil, 1⟩ ∧
    runSetOps [SetOp.ins 3, SetOp.ins 4, SetOp.rem 3]
      = some ⟨.node .black .nil 4 () .nil, 1⟩ ∧
    ((rootBlackOrNil (Tree.node Color.black .nil 25 2 .nil) = true ∧
        noRedRed (Tree.node Color.black .nil 25 2 .nil) = true ∧
        (bhOf (Tree.node Color.black .nil 25 2 .nil)).isSome = true) ∧
     (rootBlackOrNil (Tree.node Color.black .nil 4 () .nil) = true ∧
        noRedRed (Tree.node Color.black .nil 4 () .nil) = true ∧
        (bhOf (Tree.node Color.black .nil 4 () .nil)).isSome = true)) :=
  ⟨rfl, rfl,
    @claim_C1 [MapOp.ins 50 1, MapOp.ins 25 2, MapOp.rem 50]
      ⟨.node .black .nil 25 2 .nil, 1⟩ rfl
      [SetOp.ins 3, SetOp.ins 4, SetOp.rem 3]
      ⟨.node .black .nil 4 () .nil, 1⟩ rfl⟩

/-- C2: for every tree reachable by insert/remove operations from an empty
map or set, the in-order traversal (the order of `entries`/`keys`, which is
the visit order of `map_foreach_node` and `set_to_str_node`) lists the keys
in strictly increasing comparator order. -/
theorem claim_C2 {ops : List MapOp} {m : RBMap Int}
    (hm : runMapOps ops = some m)
    {sops : List SetOp} {s : RBSet} (hs : runSetOps sops = some s) :
    (keys m.root).Pairwise (· < ·) ∧ (keys s.root).Pairwise (· < ·) := by
  have h1 := runMapFrom_MInv ops minv_init hm
  have h2 := runSetFrom_SInv sops sinv_init hs
  exact ⟨h1.2.1, h2.2.1⟩

theorem claim_C2_witness :
    runMapOps [MapOp.ins 50 1, MapOp.ins 25 2, MapOp.ins 75 3]
      = some ⟨.node .black (.node .red .nil 25 2 .nil) 50 1
          (.node .red .nil 75 3 .nil), 3⟩ ∧
    runSetOps [SetOp.ins 3] = some ⟨.node .black .nil 3 () .nil, 1⟩ ∧
    ((keys (Tree.node Color.black (.node .red .nil 25 2 .nil) 50 1
        (.node .red .nil 75 3 .nil))).Pairwise (· < ·) ∧
      (keys (Tree.node Color.black .nil 3 () .nil)).Pairwise (· < ·)) :=
  ⟨rfl, rfl,
    @claim_C2 [MapOp.ins 50 1, MapOp.ins 25 2, MapOp.ins 75 3]
      ⟨.node .black (.node .red .nil 25 2 .nil) 50 1
        (.node .red .nil 75 3 .nil), 3⟩ rfl
      [SetOp.ins 3] ⟨.node .black .nil 3 () .nil, 1⟩ rfl⟩

/-- C3: on every reachable map the `size` field equals the number of nodes
reachable from the root (also after `map_clear`); inserting an absent key
returns true and increments size by exactly one, inserting a present key
returns false and leaves size unchanged, removing a present key returns
true and decrements size by exactly one, and removing an absent key
returns false and leaves size unchanged. -/
theorem claim_C3 {ops : List MapOp} {m : RBMap Int}
    (hm : runMapOps ops = some m) (k v : Int) :
    m.size = (count m.root : Int) ∧
    (mapClear m).size = (count (mapClear m).root : Int) ∧
    (∃ b m2, mapInsert m k v = some (b, m2) ∧
      (mapContains m k = false → b = true ∧ m2.size = m.size + 1) ∧
      (mapContains m k = true → b = false ∧ m2.size = m.size)) ∧
    (∃ b m2, mapRemove m k = some (b, m2) ∧
      (mapContains m k = true → b = true ∧ m2.size = m.size - 1) ∧
      (mapContains m k = false → b = false ∧ m2.size = m.size)) := by
  have hminv := runMapFrom_MInv ops minv_init hm
  refine ⟨hminv.2.2, by simp [mapClear, count], ?_, ?_⟩
  · obtain ⟨b, m2, heq, hm2, hget, hpres, hcase⟩ := mapInsert_master hminv k v
    refine ⟨b, m2, heq, ?_, ?_⟩
    · intro hc
      rcases hcase with ⟨hb, ⟨w, hw⟩, hsh, hsz⟩ | ⟨hb, hnone, hsz⟩
      · exfalso
        rw [show mapContains m k = (mapGet m k).isSome from rfl, hw] at hc
        simp at hc
      · exact ⟨hb, hsz⟩
    · intro hc
      rcases hcase with ⟨hb, hw, hsh, hsz⟩ | ⟨hb, hnone, hsz⟩
      · exact ⟨hb, hsz⟩
      · exfalso
        rw [show mapContains m k = (mapGet m k).isSome from rfl, hnone] at hc
        simp at hc
  · obtain ⟨b, m2, heq, hm2, hget, hpres, hcase⟩ := mapRemove_master hminv k
    refine ⟨b, m2, heq, ?_, ?_⟩
    · intro hc
      rcases hcase with ⟨hb, hmm, hnone⟩ | ⟨hb, hw, hsz⟩
      · exfalso
        rw [show mapContains m k = (mapGet m k).isSome from rfl, hnone] at hc
        simp at hc
      · exact ⟨hb, hsz⟩
    · intro hc
      rcases hcase with ⟨hb, hmm, hnone⟩ | ⟨hb, ⟨w, hw⟩, hsz⟩
      · exact ⟨hb, by rw [hmm]⟩
      · exfalso
        rw [show mapContains m k = (mapGet m k).isSome from rfl, hw] at hc
        simp at hc

theorem claim_C3_witness :
    runMapOps [MapOp.ins 7 1] = some ⟨.node .black .nil 7 1 .nil, 1⟩ ∧
    ((⟨.node .black .nil 7 1 .nil, 1⟩ : RBMap Int).size
      = (count (Tree.node Color.black .nil 7 1 .nil) : Int) ∧
     (mapClear (⟨.node .black .nil 7 1 .nil, 1⟩ : RBMap Int)).size
      = (count (mapClear (⟨.node .black .nil 7 1 .nil, 1⟩ : RBMap Int)).root
          : Int) ∧
     (∃ b m2, mapInsert (⟨.node .black .nil 7 1 .nil, 1⟩ : RBMap Int) 7 9
        = some (b, m2) ∧
       (mapContains (⟨.node .black .nil 7 1 .nil, 1⟩ : RBMap Int) 7 = false →
         b = true ∧ m2.size = 1 + 1) ∧
       (mapContains (⟨.node .black .nil 7 1 .nil, 1⟩ : RBMap Int) 7 = true →
         b = false ∧ m2.size = 1)) ∧
     (∃ b m2, mapRemove (⟨.node .black .nil 7 1 .nil, 1⟩ : RBMap Int) 7
        = some (b, m2) ∧
       (mapContains (⟨.node .black .nil 7 1 .nil, 1⟩ : RBMap Int) 7 = true →
         b = true ∧ m2.size = 1 - 1) ∧
       (mapContains (⟨.node .black .nil 7 1 .nil, 1⟩ : RBMap Int) 7 = false →
         b = false ∧ m2.size = 1))) :=
  ⟨rfl, @claim_C3 [MapOp.ins 7 1] ⟨.node .black .nil 7 1 .nil, 1⟩ rfl 7 9⟩

/-- C4: inserting any list of entries with pairwise-distinct keys into an
empty map makes `map_get` return the associated value for each of them (and
`set_insert`/`set_contains` behave likewise on an empty set); after removing
one of the keys, lookup of the removed key reports absence while every
other inserted key is still retrievable with its value. -/
theorem claim_C4 (l : List (Int × Int)) (ks : List Int)
    (hnd : (l.map Prod.fst).Nodup) (hndk : ks.Nodup)
    (k0 : Int) (hk0 : k0 ∈ l.map Prod.fst) (e0 : Int) (he0 : e0 ∈ ks) :
    (∃ m, insertAll initMap l = some m ∧
      (∀ kv ∈ l, mapGet m kv.1 = some kv.2) ∧
      ∃ m2, mapRemove m k0 = some (true, m2) ∧ mapGet m2 k0 = none ∧
        (∀ kv ∈ l, kv.1 ≠ k0 → mapGet m2 kv.1 = some kv.2)) ∧
    (∃ s, insertAllS initSet ks = some s ∧
      (∀ k ∈ ks, setContains s k = true) ∧
      ∃ s2, setRemove s e0 = some (true, s2) ∧ setContains s2 e0 = false ∧
        (∀ k ∈ ks, k ≠ e0 → setContains s2 k = true)) := by
  constructor
  · obtain ⟨m, heq, hm, hget, hpres⟩ := insertAll_master l minv_init hnd
    rcases List.mem_map.mp hk0 with ⟨kv0, hmem0, hfst0⟩
    have hget0 : mapGet m k0 = some kv0.2 := by
      rw [← hfst0]
      exact hget kv0 hmem0
    obtain ⟨b, m2, heqr, hm2, hgetr, hpresr, hcase⟩ := mapRemove_master hm k0
    rcases hcase with ⟨hb, hmm, hnone⟩ | ⟨hb, hw, hsz⟩
    · rw [hget0] at hnone
      cases hnone
    · subst hb
      refine ⟨m, heq, hget, m2, heqr, hgetr, ?_⟩
      intro kv hkv hne
      rw [hpresr kv.1 hne]
      exact hget kv hkv
  · obtain ⟨s, heq, hs, hget, hpres⟩ := insertAllS_master ks sinv_init hndk
    have hget0 : setContains s e0 = true := hget e0 he0
    obtain ⟨b, s2, heqr, hs2, hgetr, hpresr, hcase⟩ := setRemove_master hs e0
    rcases hcase with ⟨hb, hmm, hnone⟩ | ⟨hb, hw, hsz⟩
    · rw [hget0] at hnone
      cases hnone
    · subst hb
      refine ⟨s, heq, hget, s2, heqr, hgetr, ?_⟩
      intro k hk hne
      rw [hpresr k hne]
      exact hget k hk

theorem claim_C4_witness :
    (([(1, 10), (2, 20)] : List (Int × Int)).map Prod.fst).Nodup ∧
    ([5, 6] : List Int).Nodup ∧
    (1 : Int) ∈ ([(1, 10), (2, 20)] : List (Int × Int)).map Prod.fst ∧
    (5 : Int) ∈ ([5, 6] : List Int) ∧
    ((∃ m, insertAll initMap [(1, 10), (2, 20)] = some m ∧
      (∀ kv ∈ ([(1, 10), (2, 20)] : List (Int × Int)),
        mapGet m kv.1 = some kv.2) ∧
      ∃ m2, mapRemove m 1 = some (true, m2) ∧ mapGet m2 1 = none ∧
        (∀ kv ∈ ([(1, 10), (2, 20)] : List (Int × Int)), kv.1 ≠ 1 →
          mapGet m2 kv.1 = some kv.2)) ∧
     (∃ s, insertAllS initSet [5, 6] = some s ∧
      (∀ k ∈ ([5, 6] : List Int), setContains s k = true) ∧
      ∃ s2, setRemove s 5 = some (true, s2) ∧ setContains s2 5 = false ∧
        (∀ k ∈ ([5, 6] : List Int), k ≠ 5 → setContains s2 k = true))) :=
  ⟨by decide, by decide, by decide, by decide,
    claim_C4 [(1, 10), (2, 20)] [5, 6] (by decide) (by decide) 1 (by decide)
      5 (by decide)⟩

/-- C5: on any valid map that already contains the inserted key, the map's
insert overwrites the stored value in place (the key afterwards maps to the
new value), returns false, and alters neither the tree shape (nodes, links
and colors, as captured by `shape`) nor the size; on any valid set that
already contains the element, the set's insert returns false and leaves the
set entirely unchanged. -/
theorem claim_C5 {m : RBMap Int} (hm : MInv m) {s : RBSet} (hs : SInv s)
    (k e : Int) {w : Int} (hw : mapGet m k = some w)
    (hks : setContains s e = true) (v : Int) :
    (∃ m2, mapInsert m k v = some (false, m2) ∧
      shape m2.root = shape m.root ∧ m2.size = m.size ∧
      mapGet m2 k = some v) ∧
    setInsert s e = some (false, s) := by
  constructor
  · obtain ⟨b, m2, heq, hm2, hget, hpres, hcase⟩ := mapInsert_master hm k v
    rcases hcase with ⟨hb, hww, hsh, hsz⟩ | ⟨hb, hnone, hsz⟩
    · subst hb
      exact ⟨m2, heq, hsh, hsz, hget⟩
    · rw [hw] at hnone
      cases hnone
  · obtain ⟨b, s2, heq, hs2, hget, hpres, hcase⟩ := setInsert_master hs e
    rcases hcase with ⟨hb, hss, hc, hsz⟩ | ⟨hb, hnone, hsz⟩
    · subst hb
      rw [heq, hss]
    · rw [hks] at hnone
      cases hnone

theorem claim_C5_witness :
    MInv (⟨.node .black .nil 1 10 .nil, 1⟩ : RBMap Int) ∧
    SInv (⟨.node .black .nil 2 () .nil, 1⟩ : RBSet) ∧
    mapGet (⟨.node .black .nil 1 10 .nil, 1⟩ : RBMap Int) 1 = some 10 ∧
    setContains (⟨.node .black .nil 2 () .nil, 1⟩ : RBSet) 2 = true ∧
    ((∃ m2, mapInsert (⟨.node .black .nil 1 10 .nil, 1⟩ : RBMap Int) 1 99
        = some (false, m2) ∧
      shape m2.root = shape (Tree.node Color.black .nil 1 10 .nil) ∧
      m2.size = 1 ∧ mapGet m2 1 = some 99) ∧
     setInsert (⟨.node .black .nil 2 () .nil, 1⟩ : RBSet) 2
      = some (false, ⟨.node .black .nil 2 () .nil, 1⟩)) := by
  have hm : MInv (⟨.node .black .nil 1 10 .nil, 1⟩ : RBMap Int) :=
    ⟨⟨1, .black .nil .nil⟩, by decide, by decide⟩
  have hs : SInv (⟨.node .black .nil 2 () .nil, 1⟩ : RBSet) :=
    ⟨⟨1, .black .nil .nil⟩, by decide, by decide⟩
  exact ⟨hm, hs, rfl, rfl, claim_C5 hm hs 1 2 rfl rfl 99⟩

/-- C6: on any valid map/set, for a key not present, remove returns false
and hands back the container unchanged, the map's get returns the empty
result, and the set's contains returns false -- absence is an ordinary
result, never an error (`none` in the model marks the C null
dereferences, and it does not occur here). -/
theorem claim_C6 {m : RBMap Int} (hm : MInv m) {s : RBSet} (hs : SInv s)
    {k e : Int} (hmk : mapGet m k = none) (hsk : setContains s e = false) :
    mapRemove m k = some (false, m) ∧ mapContains m k = false ∧
    setRemove s e = some (false, s) := by
  refine ⟨?_, ?_, ?_⟩
  · obtain ⟨b, m2, heq, hm2, hget, hpres, hcase⟩ := mapRemove_master hm k
    rcases hcase with ⟨hb, hmm, hnone⟩ | ⟨hb, ⟨w, hw⟩, hsz⟩
    · subst hb
      rw [heq, hmm]
    · rw [hw] at hmk
      cases hmk
  · rw [show mapContains m k = (mapGet m k).isSome from rfl, hmk]
    rfl
  · obtain ⟨b, s2, heq, hs2, hget, hpres, hcase⟩ := setRemove_master hs e
    rcases hcase with ⟨hb, hss, hnone⟩ | ⟨hb, hc, hsz⟩
    · subst hb
      rw [heq, hss]
    · rw [hsk] at hc
      cases hc

theorem claim_C6_witness :
    MInv (⟨.node .black .nil 1 10 .nil, 1⟩ : RBMap Int) ∧
    SInv (⟨.node .black .nil 2 () .nil, 1⟩ : RBSet) ∧
    mapGet (⟨.node .black .nil 1 10 .nil, 1⟩ : RBMap Int) 8 = none ∧
    setContains (⟨.node .black .nil 2 () .nil, 1⟩ : RBSet) 9 = false ∧
    (mapRemove (⟨.node .black .nil 1 10 .nil, 1⟩ : RBMap Int) 8
      = some (false, ⟨.node .black .nil 1 10 .nil, 1⟩) ∧
     mapContains (⟨.node .black .nil 1 10 .nil, 1⟩ : RBMap Int) 8 = false ∧
     setRemove (⟨.node .black .nil 2 () .nil, 1⟩ : RBSet) 9
      = some (false, ⟨.node .black .nil 2 () .nil, 1⟩)) := by
  have hm : MInv (⟨.node .black .nil 1 10 .nil, 1⟩ : RBMap Int) :=
    ⟨⟨1, .black .nil .nil⟩, by decide, by decide⟩
  have hs : SInv (⟨.node .black .nil 2 () .nil, 1⟩ : RBSet) :=
    ⟨⟨1, .black .nil .nil⟩, by decide, by decide⟩
  exact ⟨hm, hs, rfl, rfl, claim_C6 hm hs rfl rfl⟩

/-- C7: joining a valid source with K elements, M of which compare equal
to elements already in the valid destination, returns K - M, grows the
destination size by exactly K - M, leaves the destination containing
exactly the union of both element sets, and empties the source. -/
theorem claim_C7 {dest src : RBSet} (hd : SInv dest) (hs : SInv src) :
    ∃ r d2 dl, setJoin dest src = some (r, d2, initSet, dl) ∧ SInv d2 ∧
      r = (count src.root : Int)
        - (((keys src.root).filter (fun k => setContains dest k)).length
            : Int) ∧
      d2.size = dest.size + r ∧
      (∀ k, setContains d2 k = (setContains dest k || setContains src k))
      := by
  obtain ⟨r, d2, dl, heq, hd2, hcon, hr, hsz, hdl⟩ := setJoin_master hd hs
  refine ⟨r, d2, dl, heq, hd2, ?_, hsz, hcon⟩
  have hpart := length_filter_partition (fun k => setContains dest k)
    (keys src.root)
  have hK : count src.root = (keys src.root).length := by
    rw [count_eq_entries_length, keys_eq]
    simp
  rw [hr, hK]
  simp only at hpart
  omega

theorem claim_C7_witness :
    SInv (⟨.node .black .nil 1 () .nil, 1⟩ : RBSet) ∧
    SInv (⟨.node .black .nil 2 () .nil, 1⟩ : RBSet) ∧
    (∃ r d2 dl, setJoin (⟨.node .black .nil 1 () .nil, 1⟩ : RBSet)
        (⟨.node .black .nil 2 () .nil, 1⟩ : RBSet)
        = some (r, d2, initSet, dl) ∧ SInv d2 ∧
      r = (count (Tree.node Color.black .nil 2 () .nil) : Int)
        - (((keys (Tree.node Color.black .nil 2 () .nil)).filter
            (fun k => setContains (⟨.node .black .nil 1 () .nil, 1⟩ : RBSet)
              k)).length : Int) ∧
      d2.size = 1 + r ∧
      (∀ k, setContains d2 k =
        (setContains (⟨.node .black .nil 1 () .nil, 1⟩ : RBSet) k ||
         setContains (⟨.node .black .nil 2 () .nil, 1⟩ : RBSet) k))) := by
  have hd : SInv (⟨.node .black .nil 1 () .nil, 1⟩ : RBSet) :=
    ⟨⟨1, .black .nil .nil⟩, by decide, by decide⟩
  have hs : SInv (⟨.node .black .nil 2 () .nil, 1⟩ : RBSet) :=
    ⟨⟨1, .black .nil .nil⟩, by decide, by decide⟩
  exact ⟨hd, hs, claim_C7 hd hs⟩

/-- C8: when a valid source is joined into a valid destination, the
destructor sweep of the source's subsequent clear (the `clearDtorList` of
the mutated source tree) never receives the payload of an element that was
transferred to the destination (its slot was zeroed by the move), and
receives the payload of each colliding duplicate element exactly once.
(Payloads are compared to the zeroed slot value, so the statement is for
nonzero payloads.) -/
theorem claim_C8 {dest src : RBSet} (hd : SInv dest) (hs : SInv src)
    {r : Int} {d2 src2 : RBSet} {dl : List Int}
    (hj : setJoin dest src = some (r, d2, src2, dl)) {p : Int}
    (hp : p ≠ 0) :
    (setContains src p = true → setContains dest p = false → p ∉ dl) ∧
    (setContains src p = true → setContains dest p = true →
      dl.count p = 1) := by
  obtain ⟨r2, d22, dl2, heq, _, _, _, _, hdl⟩ := setJoin_master hd hs
  rw [heq] at hj
  injection hj with hj
  simp only [Prod.mk.injEq] at hj
  obtain ⟨h1, h2, h3, h4⟩ := hj
  subst h4
  constructor
  · intro hsrcp hdestp hmem
    rw [hdl] at hmem
    obtain ⟨a, ha, hfa⟩ := List.mem_map.mp hmem
    by_cases hca : setContains dest a = true
    · rw [if_pos hca] at hfa
      subst hfa
      rw [hca] at hdestp
      cases hdestp
    · rw [if_neg hca] at hfa
      exact hp hfa.symm
  · intro hsrcp hdestp
    have hf : ∀ a : Int,
        (if setContains dest a = true then a else 0) = p ↔ a = p := by
      intro a
      constructor
      · intro hfa
        by_cases hca : setContains dest a = true
        · rwa [if_pos hca] at hfa
        · rw [if_neg hca] at hfa
          exact absurd hfa.symm hp
      · intro ha
        subst ha
        rw [if_pos hdestp]
    rw [hdl, count_map_ite hf,
      (clearDtorList_perm_keys src.root).count_eq]
    have hmemk : p ∈ keys src.root := (contains_iff_mem_keys hs p).mp hsrcp
    have hndk : (keys src.root).Nodup := sorted_keys_nodup hs.2.1
    exact List.count_eq_one_of_mem hndk hmemk

theorem claim_C8_witness :
    SInv (⟨.node .black .nil 1 () .nil, 1⟩ : RBSet) ∧
    SInv (⟨.node .black .nil 1 () .nil, 1⟩ : RBSet) ∧
    setJoin (⟨.node .black .nil 1 () .nil, 1⟩ : RBSet)
        (⟨.node .black .nil 1 () .nil, 1⟩ : RBSet)
      = some (0, ⟨.node .black .nil 1 () .nil, 1⟩, initSet, [1]) ∧
    (1 : Int) ≠ 0 ∧
    ((setContains (⟨.node .black .nil 1 () .nil, 1⟩ : RBSet) 1 = true →
        setContains (⟨.node .black .nil 1 () .nil, 1⟩ : RBSet) 1 = false →
        (1 : Int) ∉ ([1] : List Int)) ∧
     (setContains (⟨.node .black .nil 1 () .nil, 1⟩ : RBSet) 1 = true →
        setContains (⟨.node .black .nil 1 () .nil, 1⟩ : RBSet) 1 = true →
        ([1] : List Int).count 1 = 1)) := by
  have hd : SInv (⟨.node .black .nil 1 () .nil, 1⟩ : RBSet) :=
    ⟨⟨1, .black .nil .nil⟩, by decide, by decide⟩
  exact ⟨hd, hd, rfl, by decide, claim_C8 hd hd rfl (by decide)⟩

/-- C9: clear resets the container to an empty root and size 0, is
idempotent, and is safe on an already-empty container (an observation of
the translations of `map_clear` and `set_clear`, whose C bodies free the
nodes and null the root). -/
theorem claim_C9 (m : RBMap Int) (s : RBSet) :
    (mapClear m).root = .nil ∧ (mapClear m).size = 0 ∧
    mapClear (mapClear m) = mapClear m ∧
    mapClear (initMap : RBMap Int) = initMap ∧
    (setClear s).root = .nil ∧ (setClear s).size = 0 ∧
    setClear (setClear s) = setClear s ∧ setClear initSet = initSet :=
  ⟨rfl, rfl, rfl, rfl, rfl, rfl, rfl, rfl⟩

/-- C10: on any container satisfying the red-black invariants, remove
never reaches a null dereference: in the model every unguarded C
dereference of the remove fix-up -- in particular the reads `!w->left` /
`!w->right` through the sibling pointer `w` -- is translated to `none`,
so the fact that `map_remove`/`set_remove` always returns `some` states
that under the invariant precondition the sibling `w` is non-null whenever
those reads happen. -/
theorem claim_C10 {m : RBMap Int} (hm : MInv m) {s : RBSet} (hs : SInv s)
    (k e : Int) :
    (∃ br, mapRemove m k = some br) ∧ (∃ bs, setRemove s e = some bs) := by
  obtain ⟨b, m2, heq, _⟩ := mapRemove_master hm k
  obtain ⟨b2, s2, heq2, _⟩ := setRemove_master hs e
  exact ⟨⟨(b, m2), heq⟩, ⟨(b2, s2), heq2⟩⟩

theorem claim_C10_witness :
    MInv (⟨.node .black .nil 1 10 .nil, 1⟩ : RBMap Int) ∧
    SInv (⟨.node .black .nil 2 () .nil, 1⟩ : RBSet) ∧
    ((∃ br, mapRemove (⟨.node .black .nil 1 10 .nil, 1⟩ : RBMap Int) 1
        = some br) ∧
     (∃ bs, setRemove (⟨.node .black .nil 2 () .nil, 1⟩ : RBSet) 2
        = some bs)) := by
  have hm : MInv (⟨.node .black .nil 1 10 .nil, 1⟩ : RBMap Int) :=
    ⟨⟨1, .black .nil .nil⟩, by decide, by decide⟩
  have hs : SInv (⟨.node .black .nil 2 () .nil, 1⟩ : RBSet) :=
    ⟨⟨1, .black .nil .nil⟩, by decide, by decide⟩
  exact ⟨hm, hs, claim_C10 hm hs 1 2⟩

end CLIP
